import Mathlib

/-!
Verification of the simulation core of a browser 2D arcade shooter.

Shallow embedding of the TypeScript sources:
  - gameLoop.ts      : fixed-timestep loop (`GameLoop.tick`, `setTargetFPS`)
  - timing.ts        : `TimingSystem.setTargetFps`
  - quadTree.ts      : spatial index (`insert`, `retrieve`, `split`, `getIndex`)
  - sprite.ts        : `CollisionSystem.checkCollision` and shape tests
  - ProjectileSystem : pooled projectile lifecycle
  - WaveManager.ts   : wave scheduler state machine
  - MovementPatterns : `MovementUtils.combinePatterns`

JavaScript numbers are modelled as `ℚ` (exact arithmetic; the claims under
study are order/equality facts preserved by exact arithmetic), except the
collision module where `Math.sqrt` forces `ℝ`.  Mutable objects become
explicit state records; callback side effects become appended event lists.
-/

namespace GameLoop

/-- Constants from gameLoop.ts lines 8-10. -/
def DEFAULT_FPS : ℚ := 60

/-- Default fixed-step duration in ms: `1000 / DEFAULT_FPS`. -/
def DEFAULT_FRAME_TIME : ℚ := 1000 / DEFAULT_FPS

/-- Maximum elapsed time accepted per frame, ms (spiral-of-death clamp). -/
def MAX_FRAME_TIME : ℚ := 100

/-- Mutable fields of the `GameLoop` instance relevant to timing
(accumulator discipline).  FPS bookkeeping fields are omitted: they do not
feed back into the accumulator, step count, or interpolation. -/
structure State where
  frameTime : ℚ
  maxFrameTime : ℚ
  accumulator : ℚ
deriving DecidableEq, Repr

/-- While-loop of `tick` (gameLoop.ts lines 134-137): repeatedly run one
fixed update and subtract `frameTime` while `accumulator >= frameTime`.
Returns the number of fixed updates run and the final accumulator.  The
`0 < frameTime` guard makes the definition total; the source loop likewise
only terminates for positive `frameTime` (enforced by the constructor and
`setTargetFPS`). -/
def runFixedUpdates (frameTime : ℚ) (acc : ℚ) : ℕ × ℚ :=
  if h : 0 < frameTime ∧ frameTime ≤ acc then
    let r := runFixedUpdates frameTime (acc - frameTime)
    (r.1 + 1, r.2)
  else
    (0, acc)
termination_by (⌊acc / frameTime⌋).toNat
decreasing_by
  obtain ⟨hft, hle⟩ := h
  have h1 : (1 : ℚ) ≤ acc / frameTime := (le_div_iff₀ hft).mpr (by linarith)
  have h2 : (1 : ℤ) ≤ ⌊acc / frameTime⌋ := Int.le_floor.mpr (by exact_mod_cast h1)
  have h3 : ⌊(acc - frameTime) / frameTime⌋ = ⌊acc / frameTime⌋ - 1 := by
    rw [sub_div, div_self (ne_of_gt hft), Int.floor_sub_one]
  rw [h3]
  omega

/-- One call of `GameLoop.tick` (gameLoop.ts lines 97-151), for a tick in
which no callback throws.  The raw elapsed time is clamped to
`maxFrameTime` (lines 122-124), added to the accumulator (line 126), the
fixed-update loop runs (lines 134-137), and the render interpolation
`accumulator / frameTime` (line 144) is passed to the render callback.
Returns (new state, number of fixed updates run, interpolation). -/
def tick (s : State) (rawElapsed : ℚ) : State × ℕ × ℚ :=
  let deltaTime := if rawElapsed > s.maxFrameTime then s.maxFrameTime else rawElapsed
  let acc1 := s.accumulator + deltaTime
  let r := runFixedUpdates s.frameTime acc1
  ({ s with accumulator := r.2 }, r.1, r.2 / s.frameTime)

/-- Embedding of `GameLoop.setTargetFPS` (gameLoop.ts lines 157-162): throws
for `newFps <= 0`, otherwise sets `frameTime := 1000 / newFps` with no
clamping to any FPS interval. -/
def setTargetFPS (s : State) (newFps : ℚ) : Except String State :=
  if newFps ≤ 0 then .error "Target FPS must be greater than 0"
  else .ok { s with frameTime := 1000 / newFps }

end GameLoop

namespace TimingSystem

/-- Constants from timing.ts lines 10-11. -/
def MIN_FPS : ℚ := 20

/-- Upper clamp bound for the target FPS. -/
def MAX_FPS : ℚ := 120

/-- Mutable fields of `TimingSystem` relevant to the target-rate claims. -/
structure State where
  targetFps : ℚ
  accumulator : ℚ
deriving DecidableEq, Repr

/-- Embedding of `TimingSystem.setTargetFps` (timing.ts lines 125-127):
`targetFps := Math.min(Math.max(fps, MIN_FPS), MAX_FPS)`.  Only the target
rate changes; accumulated time is untouched, so the new rate is only
consulted by later `shouldProcessFrame`/`consumeFrameTime` calls. -/
def setTargetFps (s : State) (fps : ℚ) : State :=
  { s with targetFps := min (max fps MIN_FPS) MAX_FPS }

end TimingSystem

namespace GameLoop

/-- Closed form of the fixed-update while-loop: for a nonnegative
accumulator and positive step, it runs `⌊acc / frameTime⌋` updates and
leaves `acc - ⌊acc / frameTime⌋ * frameTime`. -/
theorem runFixedUpdates_closed_form (frameTime : ℚ) (hft : 0 < frameTime) :
    ∀ (k : ℕ) (acc : ℚ), 0 ≤ acc → acc < k * frameTime →
      runFixedUpdates frameTime acc =
        ((⌊acc / frameTime⌋).toNat, acc - ⌊acc / frameTime⌋ * frameTime) := by
  intro k
  induction k with
  | zero => intro acc h0 hk; simp at hk; linarith
  | succ k ih =>
    intro acc h0 hk
    rw [runFixedUpdates]
    by_cases hle : frameTime ≤ acc
    · rw [dif_pos ⟨hft, hle⟩]
      have h0' : 0 ≤ acc - frameTime := by linarith
      have hk' : acc - frameTime < k * frameTime := by
        push_cast at hk ⊢; linarith
      rw [ih (acc - frameTime) h0' hk']
      have hfl : ⌊(acc - frameTime) / frameTime⌋ = ⌊acc / frameTime⌋ - 1 := by
        rw [sub_div, div_self (ne_of_gt hft), Int.floor_sub_one]
      have hge : (1 : ℤ) ≤ ⌊acc / frameTime⌋ :=
        Int.le_floor.mpr (by exact_mod_cast (le_div_iff₀ hft).mpr (by linarith))
      simp only [hfl, Prod.mk.injEq]
      constructor
      · omega
      · push_cast; ring
    · rw [dif_neg (by tauto)]
      have hlt : acc / frameTime < 1 := (div_lt_one hft).mpr (by linarith)
      have hfl : ⌊acc / frameTime⌋ = 0 := by
        rw [Int.floor_eq_zero_iff]
        constructor
        · positivity
        · exact hlt
      simp [hfl]

/-- Closed form of `runFixedUpdates` without the explicit bound `k`. -/
theorem runFixedUpdates_eq (frameTime acc : ℚ) (hft : 0 < frameTime)
    (h0 : 0 ≤ acc) :
    runFixedUpdates frameTime acc =
      ((⌊acc / frameTime⌋).toNat, acc - ⌊acc / frameTime⌋ * frameTime) := by
  refine runFixedUpdates_closed_form frameTime hft ((⌊acc / frameTime⌋).toNat + 1) acc h0 ?_
  have h1 : acc / frameTime < ⌊acc / frameTime⌋ + 1 := Int.lt_floor_add_one _
  have h2 : (0 : ℤ) ≤ ⌊acc / frameTime⌋ := Int.floor_nonneg.mpr (by positivity)
  have h3 : ((⌊acc / frameTime⌋).toNat : ℚ) = ((⌊acc / frameTime⌋ : ℤ) : ℚ) := by
    exact_mod_cast congrArg (Int.cast : ℤ → ℚ) (Int.toNat_of_nonneg h2)
  rw [div_lt_iff₀ hft] at h1
  push_cast [h3]
  linarith

/-- Claim C1.  With the default configuration (`FIXED_STEP = 1000/60` ms,
`MAX_FRAME_TIME = 100` ms), for every starting accumulator
`a ∈ [0, FIXED_STEP)` and every raw elapsed time `e ≥ 0`, one `tick` with
non-throwing callbacks runs `n = ⌊(a + min e 100) / FIXED_STEP⌋` fixed
updates, leaves the accumulator at `a + min e 100 - n * FIXED_STEP`, which
lies in `[0, FIXED_STEP)`, and passes
`renderInterpolation = accumulator / FIXED_STEP ∈ [0, 1)` to the render
callback. -/
theorem tick_accumulator_spec (a e : ℚ) (h0 : 0 ≤ a)
    (h1 : a < DEFAULT_FRAME_TIME) (he : 0 ≤ e) :
    tick ⟨DEFAULT_FRAME_TIME, MAX_FRAME_TIME, a⟩ e =
      (⟨DEFAULT_FRAME_TIME, MAX_FRAME_TIME,
          a + min e MAX_FRAME_TIME
            - (⌊(a + min e MAX_FRAME_TIME) / DEFAULT_FRAME_TIME⌋).toNat
              * DEFAULT_FRAME_TIME⟩,
       (⌊(a + min e MAX_FRAME_TIME) / DEFAULT_FRAME_TIME⌋).toNat,
       (a + min e MAX_FRAME_TIME
            - (⌊(a + min e MAX_FRAME_TIME) / DEFAULT_FRAME_TIME⌋).toNat
              * DEFAULT_FRAME_TIME) / DEFAULT_FRAME_TIME)
    ∧ 0 ≤ a + min e MAX_FRAME_TIME
            - (⌊(a + min e MAX_FRAME_TIME) / DEFAULT_FRAME_TIME⌋).toNat
              * DEFAULT_FRAME_TIME
    ∧ a + min e MAX_FRAME_TIME
            - (⌊(a + min e MAX_FRAME_TIME) / DEFAULT_FRAME_TIME⌋).toNat
              * DEFAULT_FRAME_TIME < DEFAULT_FRAME_TIME
    ∧ 0 ≤ (a + min e MAX_FRAME_TIME
            - (⌊(a + min e MAX_FRAME_TIME) / DEFAULT_FRAME_TIME⌋).toNat
              * DEFAULT_FRAME_TIME) / DEFAULT_FRAME_TIME
    ∧ (a + min e MAX_FRAME_TIME
            - (⌊(a + min e MAX_FRAME_TIME) / DEFAULT_FRAME_TIME⌋).toNat
              * DEFAULT_FRAME_TIME) / DEFAULT_FRAME_TIME < 1 := by
  have hft : (0 : ℚ) < DEFAULT_FRAME_TIME := by
    norm_num [DEFAULT_FRAME_TIME, DEFAULT_FPS]
  set ft := DEFAULT_FRAME_TIME with hftdef
  have hclamp : (if e > MAX_FRAME_TIME then MAX_FRAME_TIME else e)
      = min e MAX_FRAME_TIME := by
    by_cases hc : e > MAX_FRAME_TIME
    · simp [hc, min_eq_right (le_of_lt hc)]
    · simp [hc, min_eq_left (le_of_not_lt hc)]
  set c := min e MAX_FRAME_TIME with hcdef
  have hc0 : 0 ≤ c := le_min he (by norm_num [MAX_FRAME_TIME])
  have hacc0 : 0 ≤ a + c := by linarith
  have hrun := runFixedUpdates_eq ft (a + c) hft hacc0
  have hQ : (((⌊(a + c) / ft⌋).toNat : ℕ) : ℚ) = ((⌊(a + c) / ft⌋ : ℤ) : ℚ) := by
    exact_mod_cast Int.toNat_of_nonneg (Int.floor_nonneg.mpr (by positivity))
  have hfr1 : 0 ≤ a + c - ⌊(a + c) / ft⌋ * ft := by
    have := Int.floor_le ((a + c) / ft)
    have h' : (⌊(a + c) / ft⌋ : ℚ) * ft ≤ (a + c) / ft * ft :=
      mul_le_mul_of_nonneg_right this (le_of_lt hft)
    rw [div_mul_cancel₀ _ (ne_of_gt hft)] at h'
    linarith
  have hfr2 : a + c - ⌊(a + c) / ft⌋ * ft < ft := by
    have := Int.lt_floor_add_one ((a + c) / ft)
    have h' : (a + c) / ft * ft < ((⌊(a + c) / ft⌋ : ℚ) + 1) * ft :=
      mul_lt_mul_of_pos_right this hft
    rw [div_mul_cancel₀ _ (ne_of_gt hft)] at h'
    nlinarith
  have hmain : tick ⟨ft, MAX_FRAME_TIME, a⟩ e =
      (⟨ft, MAX_FRAME_TIME, a + c - (⌊(a + c) / ft⌋).toNat * ft⟩,
       (⌊(a + c) / ft⌋).toNat,
       (a + c - (⌊(a + c) / ft⌋).toNat * ft) / ft) := by
    simp only [tick, hclamp, ← hcdef, hrun, hQ]
  refine ⟨hmain, ?_, ?_, ?_, ?_⟩
  · rw [hQ]; exact hfr1
  · rw [hQ]; exact hfr2
  · apply div_nonneg _ (le_of_lt hft); rw [hQ]; exact hfr1
  · rw [div_lt_one hft, hQ]; linarith

/-- Witness for C1: starting accumulator 10, raw elapsed 50 (no clamping),
step `1000/60`: three fixed updates run, accumulator ends at 10, and the
interpolation is `10 / (1000/60) = 3/5`. -/
theorem tick_accumulator_spec_witness :
    tick ⟨DEFAULT_FRAME_TIME, MAX_FRAME_TIME, 10⟩ 50 =
      (⟨DEFAULT_FRAME_TIME, MAX_FRAME_TIME,
          10 + min 50 MAX_FRAME_TIME
            - (⌊(10 + min 50 MAX_FRAME_TIME) / DEFAULT_FRAME_TIME⌋).toNat
              * DEFAULT_FRAME_TIME⟩,
       (⌊(10 + min 50 MAX_FRAME_TIME) / DEFAULT_FRAME_TIME⌋).toNat,
       (10 + min 50 MAX_FRAME_TIME
            - (⌊(10 + min 50 MAX_FRAME_TIME) / DEFAULT_FRAME_TIME⌋).toNat
              * DEFAULT_FRAME_TIME) / DEFAULT_FRAME_TIME)
    ∧ 0 ≤ 10 + min 50 MAX_FRAME_TIME
            - (⌊(10 + min 50 MAX_FRAME_TIME) / DEFAULT_FRAME_TIME⌋).toNat
              * DEFAULT_FRAME_TIME
    ∧ 10 + min 50 MAX_FRAME_TIME
            - (⌊(10 + min 50 MAX_FRAME_TIME) / DEFAULT_FRAME_TIME⌋).toNat
              * DEFAULT_FRAME_TIME < DEFAULT_FRAME_TIME
    ∧ 0 ≤ (10 + min 50 MAX_FRAME_TIME
            - (⌊(10 + min 50 MAX_FRAME_TIME) / DEFAULT_FRAME_TIME⌋).toNat
              * DEFAULT_FRAME_TIME) / DEFAULT_FRAME_TIME
    ∧ (10 + min 50 MAX_FRAME_TIME
            - (⌊(10 + min 50 MAX_FRAME_TIME) / DEFAULT_FRAME_TIME⌋).toNat
              * DEFAULT_FRAME_TIME) / DEFAULT_FRAME_TIME < 1 :=
  tick_accumulator_spec 10 50 (by norm_num)
    (by norm_num [DEFAULT_FRAME_TIME, DEFAULT_FPS]) (by norm_num)

end GameLoop

/-- Claim C7 counterexample.  The claim says both setters clamp the
requested rate into `[MIN_FPS, MAX_FPS] = [20, 120]`.  `GameLoop.setTargetFPS`
does not: requesting 300 FPS succeeds and sets `frameTime = 1000/300 = 10/3`,
an effective target of 300 FPS, outside `[20, 120]`. -/
theorem setTargetFPS_not_clamped_counterexample :
    GameLoop.setTargetFPS ⟨1000 / 60, 100, 0⟩ 300 = .ok ⟨10 / 3, 100, 0⟩ ∧
    (1000 : ℚ) / (10 / 3) = 300 ∧ ¬ ((1000 : ℚ) / (10 / 3) ≤ 120) := by
  refine ⟨?_, by norm_num, by norm_num⟩
  rw [GameLoop.setTargetFPS, if_neg (by norm_num)]
  norm_num

/-- Claim C7, amended.  `TimingSystem.setTargetFps` clamps every requested
rate into `[MIN_FPS, MAX_FPS] = [20, 120]` and touches only the target rate
(the accumulated tick state is unchanged, so the change affects only later
ticks).  `GameLoop.setTargetFPS`, by contrast, does not clamp: it rejects
rates `<= 0` and otherwise sets `frameTime = 1000 / fps` unchanged
otherwise, so the new step length is only consulted by later ticks. -/
theorem setTargetFps_clamp_spec :
    (∀ (s : TimingSystem.State) (fps : ℚ),
        TimingSystem.MIN_FPS ≤ (TimingSystem.setTargetFps s fps).targetFps ∧
        (TimingSystem.setTargetFps s fps).targetFps ≤ TimingSystem.MAX_FPS ∧
        (TimingSystem.setTargetFps s fps).accumulator = s.accumulator) ∧
    (∀ (s : GameLoop.State) (fps : ℚ), 0 < fps →
        GameLoop.setTargetFPS s fps = .ok { s with frameTime := 1000 / fps }) := by
  constructor
  · intro s fps
    refine ⟨?_, ?_, rfl⟩
    · exact le_min (le_max_right _ _)
        (by norm_num [TimingSystem.MIN_FPS, TimingSystem.MAX_FPS])
    · exact min_le_right _ _
  · intro s fps hpos
    rw [GameLoop.setTargetFPS, if_neg (not_le.mpr hpos)]

/-- Witness for the amended C7 at a concrete in-range input: requesting
50 FPS on the loop sets the step length to `1000 / 50 = 20` ms. -/
theorem setTargetFps_clamp_spec_witness :
    GameLoop.setTargetFPS ⟨1000 / 60, 100, 5⟩ 50 =
      .ok ⟨1000 / 50, 100, 5⟩ :=
  setTargetFps_clamp_spec.2 ⟨1000 / 60, 100, 5⟩ 50 (by norm_num)

namespace QuadTree

/-- Stored object (quadTree.ts `QuadTreeObject`): an axis-aligned rectangle
plus an identifier.  The source makes `id` optional and distinguishes
objects by JS reference identity; the `id` field plays that role here. -/
structure QObj where
  x : ℚ
  y : ℚ
  width : ℚ
  height : ℚ
  id : ℕ
deriving DecidableEq, Repr

/-- Boundary rectangle of a node (quadTree.ts `Boundary`). -/
structure Boundary where
  x : ℚ
  y : ℚ
  width : ℚ
  height : ℚ
deriving DecidableEq, Repr

/-- Maximum objects a node holds before splitting (quadTree.ts CONFIG). -/
def MAX_OBJECTS : ℕ := 10

/-- Maximum depth level of the tree (quadTree.ts CONFIG). -/
def MAX_LEVELS : ℕ := 5

/-- QuadTree node.  The source field `nodes` is an array that is either
empty or holds exactly the four children created by `split`; the two cases
are the two constructors. -/
inductive Tree where
  | leaf (boundary : Boundary) (level : ℕ) (objects : List QObj)
  | branch (boundary : Boundary) (level : ℕ) (objects : List QObj)
      (n0 n1 n2 n3 : Tree)
deriving Repr

/-- Boundary of the root node of `t`. -/
def Tree.boundary : Tree → Boundary
  | .leaf b _ _ => b
  | .branch b _ _ _ _ _ _ => b

/-- Depth level stored at the root node of `t`. -/
def Tree.level : Tree → ℕ
  | .leaf _ lv _ => lv
  | .branch _ lv _ _ _ _ _ => lv

/-- Object list held at the root node of `t` itself. -/
def Tree.objects : Tree → List QObj
  | .leaf _ _ objs => objs
  | .branch _ _ objs _ _ _ _ => objs

/-- Whether the node has subnodes (`this.nodes.length` non-zero). -/
def Tree.hasChildren : Tree → Prop
  | .leaf _ _ _ => False
  | .branch _ _ _ _ _ _ _ => True

instance : ∀ t : Tree, Decidable t.hasChildren
  | .leaf _ _ _ => isFalse (fun h => h)
  | .branch _ _ _ _ _ _ _ => isTrue trivial

/-- All objects stored anywhere in the subtree, this node's list first,
then children 0,1,2,3. -/
def Tree.allObjects : Tree → List QObj
  | .leaf _ _ objs => objs
  | .branch _ _ objs n0 n1 n2 n3 =>
      objs ++ (n0.allObjects ++ (n1.allObjects ++ (n2.allObjects ++ n3.allObjects)))

/-- Appending an object to the node's own list (`this.objects.push(obj)`). -/
def Tree.pushObj : Tree → QObj → Tree
  | .leaf b lv objs, o => .leaf b lv (objs ++ [o])
  | .branch b lv objs n0 n1 n2 n3, o => .branch b lv (objs ++ [o]) n0 n1 n2 n3

/-- Embedding of `QuadTree.getIndex` (quadTree.ts lines 124-141): index of
the single child quadrant that fully contains `rect` (0=NE, 1=NW, 2=SW,
3=SE), or -1 if it straddles a midline. -/
def getIndex (b : Boundary) (rect : QObj) : ℤ :=
  let verticalMidpoint := b.x + b.width / 2
  let horizontalMidpoint := b.y + b.height / 2
  if rect.x < verticalMidpoint ∧ rect.x + rect.width < verticalMidpoint then
    if rect.y < horizontalMidpoint ∧ rect.y + rect.height < horizontalMidpoint then 1
    else if rect.y > horizontalMidpoint then 2
    else -1
  else if rect.x > verticalMidpoint then
    if rect.y < horizontalMidpoint ∧ rect.y + rect.height < horizontalMidpoint then 0
    else if rect.y > horizontalMidpoint then 3
    else -1
  else -1

/-- Embedding of `QuadTree.split` (quadTree.ts lines 84-117): the four
fresh child nodes, in array order 0=NE, 1=NW, 2=SW, 3=SE, each at
`level + 1` with an empty object list. -/
def split (b : Boundary) (level : ℕ) : Tree × Tree × Tree × Tree :=
  let subWidth := b.width / 2
  let subHeight := b.height / 2
  (.leaf ⟨b.x + subWidth, b.y, subWidth, subHeight⟩ (level + 1) [],
   .leaf ⟨b.x, b.y, subWidth, subHeight⟩ (level + 1) [],
   .leaf ⟨b.x, b.y + subHeight, subWidth, subHeight⟩ (level + 1) [],
   .leaf ⟨b.x + subWidth, b.y + subHeight, subWidth, subHeight⟩ (level + 1) [])

/-- Redistribution loop of `insert` (quadTree.ts lines 168-176): walk the
node's object list; every object whose `getIndex` is not -1 is moved into
the matching child via `ins` (the recursive insert), the rest stay, order
preserved.  `ins` abstracts `insert` at one less fuel (see `insertF`). -/
def distribute (ins : Tree → QObj → Tree) (b : Boundary) :
    List QObj → Tree → Tree → Tree → Tree →
      List QObj × Tree × Tree × Tree × Tree
  | [], n0, n1, n2, n3 => ([], n0, n1, n2, n3)
  | o :: rest, n0, n1, n2, n3 =>
      let idx := getIndex b o
      if idx = 0 then distribute ins b rest (ins n0 o) n1 n2 n3
      else if idx = 1 then distribute ins b rest n0 (ins n1 o) n2 n3
      else if idx = 2 then distribute ins b rest n0 n1 (ins n2 o) n3
      else if idx = 3 then distribute ins b rest n0 n1 n2 (ins n3 o)
      else
        let r := distribute ins b rest n0 n1 n2 n3
        (o :: r.1, r.2)

/-- Embedding of `QuadTree.insert` (quadTree.ts lines 147-178), with a fuel
argument bounding recursion depth.  The source recursion terminates because
each descent and each split increases the node level, and the guard
`level < MAX_LEVELS` stops further splits; for any tree whose node levels
are consistent with a level-0 root, a fuel of `MAX_LEVELS + 2` is never
exhausted, so `insert` below computes exactly the source's result.  With
children present, the object descends into the unique fitting quadrant;
otherwise it is pushed here, and if the list now exceeds `MAX_OBJECTS` and
the level allows, the node splits (if it was a leaf) and redistributes. -/
def insertF : ℕ → Tree → QObj → Tree
  | 0, t, o => t.pushObj o
  | fuel + 1, .leaf b lv objs, o =>
      let objs1 := objs ++ [o]
      if MAX_OBJECTS < objs1.length ∧ lv < MAX_LEVELS then
        let c := split b lv
        let r := distribute (insertF fuel) b objs1 c.1 c.2.1 c.2.2.1 c.2.2.2
        .branch b lv r.1 r.2.1 r.2.2.1 r.2.2.2.1 r.2.2.2.2
      else .leaf b lv objs1
  | fuel + 1, .branch b lv objs n0 n1 n2 n3, o =>
      let idx := getIndex b o
      if idx = 0 then .branch b lv objs (insertF fuel n0 o) n1 n2 n3
      else if idx = 1 then .branch b lv objs n0 (insertF fuel n1 o) n2 n3
      else if idx = 2 then .branch b lv objs n0 n1 (insertF fuel n2 o) n3
      else if idx = 3 then .branch b lv objs n0 n1 n2 (insertF fuel n3 o)
      else
        let objs1 := objs ++ [o]
        if MAX_OBJECTS < objs1.length ∧ lv < MAX_LEVELS then
          let r := distribute (insertF fuel) b objs1 n0 n1 n2 n3
          .branch b lv r.1 r.2.1 r.2.2.1 r.2.2.2.1 r.2.2.2.2
        else .branch b lv objs1 n0 n1 n2 n3

/-- Public `insert`: fuel `MAX_LEVELS + 2` covers the worst-case recursion
depth from a level-0 root (see `insertF`). -/
def insert (t : Tree) (o : QObj) : Tree := insertF (MAX_LEVELS + 2) t o

/-- Fold of `insert` over a list of objects, left to right. -/
def insertAll (t : Tree) (objs : List QObj) : Tree := objs.foldl insert t

/-- Freshly constructed QuadTree on boundary `b` (constructor with default
`level = 0`, quadTree.ts lines 60-65). -/
def mkTree (b : Boundary) : Tree := .leaf b 0 []

/-- Embedding of `QuadTree.retrieve` (quadTree.ts lines 185-201): the
node's own objects, plus the matching child's retrieval when the query
fits one quadrant, or all four children's retrievals when it straddles. -/
def retrieve : Tree → QObj → List QObj
  | .leaf _ _ objs, _ => objs
  | .branch b _ objs n0 n1 n2 n3, o =>
      let idx := getIndex b o
      if idx = 0 then objs ++ retrieve n0 o
      else if idx = 1 then objs ++ retrieve n1 o
      else if idx = 2 then objs ++ retrieve n2 o
      else if idx = 3 then objs ++ retrieve n3 o
      else objs ++ (retrieve n0 o ++ (retrieve n1 o ++ (retrieve n2 o ++ retrieve n3 o)))

/-- Axis-aligned rectangle overlap, exactly the narrow-phase AABB test of
sprite.ts `checkRectangleRectangle` (lines 373-376): true unless one of
the four strict separating inequalities holds.  This is the "truly
overlaps" notion of the retrieval-completeness claim. -/
def rectsOverlap (a q : QObj) : Prop :=
  ¬ (q.x > a.x + a.width ∨ q.x + q.width < a.x ∨
     q.y > a.y + a.height ∨ q.y + q.height < a.y)

instance (a q : QObj) : Decidable (rectsOverlap a q) := by
  unfold rectsOverlap; infer_instance

end QuadTree

namespace QuadTree

theorem getIndex_values (b : Boundary) (o : QObj) :
    getIndex b o = -1 ∨ getIndex b o = 0 ∨ getIndex b o = 1 ∨
      getIndex b o = 2 ∨ getIndex b o = 3 := by
  simp only [getIndex]
  split_ifs <;> simp

theorem left_of_getIndex (b : Boundary) (o : QObj)
    (h : getIndex b o = 1 ∨ getIndex b o = 2) :
    o.x + o.width < b.x + b.width / 2 := by
  rcases h with h | h <;>
    (simp only [getIndex] at h;
     split_ifs at h with hc1 hc2 hc3 hc4 hc5 hc6 <;>
      first | omega | exact hc1.2)

theorem right_of_getIndex (b : Boundary) (o : QObj)
    (h : getIndex b o = 0 ∨ getIndex b o = 3) :
    b.x + b.width / 2 < o.x := by
  rcases h with h | h <;>
    (simp only [getIndex] at h;
     split_ifs at h with hc1 hc2 hc3 hc4 hc5 hc6 <;>
      first | omega | exact hc4)

theorem top_of_getIndex (b : Boundary) (o : QObj)
    (h : getIndex b o = 0 ∨ getIndex b o = 1) :
    o.y + o.height < b.y + b.height / 2 := by
  rcases h with h | h
  · simp only [getIndex] at h
    split_ifs at h with hc1 hc2 hc3 hc4 hc5 hc6 <;>
      first | omega | exact hc5.2
  · simp only [getIndex] at h
    split_ifs at h with hc1 hc2 hc3 hc4 hc5 hc6 <;>
      first | omega | exact hc2.2

theorem bottom_of_getIndex (b : Boundary) (o : QObj)
    (h : getIndex b o = 2 ∨ getIndex b o = 3) :
    b.y + b.height / 2 < o.y := by
  rcases h with h | h
  · simp only [getIndex] at h
    split_ifs at h with hc1 hc2 hc3 hc4 hc5 hc6 <;>
      first | omega | exact hc3
  · simp only [getIndex] at h
    split_ifs at h with hc1 hc2 hc3 hc4 hc5 hc6 <;>
      first | omega | exact hc6

theorem getIndex_sep (b : Boundary) (o q : QObj)
    (ho : getIndex b o ≠ -1) (hq : getIndex b q ≠ -1)
    (hne : getIndex b o ≠ getIndex b q) : ¬ rectsOverlap o q := by
  intro hov
  unfold rectsOverlap at hov
  have hx1 : (getIndex b o = 1 ∨ getIndex b o = 2) →
      (getIndex b q = 0 ∨ getIndex b q = 3) → False := fun h1 h2 =>
    hov (Or.inl (lt_trans (left_of_getIndex b o h1) (right_of_getIndex b q h2)))
  have hx2 : (getIndex b o = 0 ∨ getIndex b o = 3) →
      (getIndex b q = 1 ∨ getIndex b q = 2) → False := fun h1 h2 =>
    hov (Or.inr (Or.inl (lt_trans (left_of_getIndex b q h2) (right_of_getIndex b o h1))))
  have hy1 : (getIndex b o = 0 ∨ getIndex b o = 1) →
      (getIndex b q = 2 ∨ getIndex b q = 3) → False := fun h1 h2 =>
    hov (Or.inr (Or.inr (Or.inl (lt_trans (top_of_getIndex b o h1) (bottom_of_getIndex b q h2)))))
  have hy2 : (getIndex b o = 2 ∨ getIndex b o = 3) →
      (getIndex b q = 0 ∨ getIndex b q = 1) → False := fun h1 h2 =>
    hov (Or.inr (Or.inr (Or.inr (lt_trans (top_of_getIndex b q h2) (bottom_of_getIndex b o h1)))))
  rcases getIndex_values b o with h | h | h | h | h <;>
    rcases getIndex_values b q with h' | h' | h' | h' | h' <;>
      first
        | exact absurd h ho
        | exact absurd h' hq
        | exact absurd (h.trans h'.symm) hne
        | exact hx1 (Or.inl h) (Or.inl h')
        | exact hx1 (Or.inl h) (Or.inr h')
        | exact hx1 (Or.inr h) (Or.inl h')
        | exact hx1 (Or.inr h) (Or.inr h')
        | exact hx2 (Or.inl h) (Or.inl h')
        | exact hx2 (Or.inl h) (Or.inr h')
        | exact hx2 (Or.inr h) (Or.inl h')
        | exact hx2 (Or.inr h) (Or.inr h')
        | exact hy1 (Or.inl h) (Or.inr h')
        | exact hy1 (Or.inr h) (Or.inl h')
        | exact hy2 (Or.inl h) (Or.inr h')
        | exact hy2 (Or.inr h) (Or.inl h')

end QuadTree

namespace QuadTree

theorem distribute_perm (ins : Tree → QObj → Tree)
    (hins : ∀ n o, (ins n o).allObjects.Perm (o :: n.allObjects)) (b : Boundary) :
    ∀ (l : List QObj) (n0 n1 n2 n3 : Tree),
      ((distribute ins b l n0 n1 n2 n3).1 ++
        ((distribute ins b l n0 n1 n2 n3).2.1.allObjects ++
          ((distribute ins b l n0 n1 n2 n3).2.2.1.allObjects ++
            ((distribute ins b l n0 n1 n2 n3).2.2.2.1.allObjects ++
              (distribute ins b l n0 n1 n2 n3).2.2.2.2.allObjects)))).Perm
        (l ++ (n0.allObjects ++ (n1.allObjects ++ (n2.allObjects ++ n3.allObjects)))) := by
  intro l
  induction l with
  | nil => intro n0 n1 n2 n3; simp [distribute]
  | cons o rest ih =>
    intro n0 n1 n2 n3
    have hco : ∀ n o', ((ins n o').allObjects : Multiset QObj) = ↑(o' :: n.allObjects) :=
      fun n o' => Multiset.coe_eq_coe.mpr (hins n o')
    simp only [distribute]
    split_ifs with h0 h1 h2 h3 <;>
      first
        | exact (ih _ _ _ _).cons o
        | (refine ((ih _ _ _ _).trans ?_)
           rw [← Multiset.coe_eq_coe]
           simp only [← Multiset.coe_add, ← Multiset.cons_coe, hco]
           simp only [← Multiset.singleton_add, ← Multiset.coe_add]
           abel)

end QuadTree

namespace QuadTree

theorem insertF_perm : ∀ (fuel : ℕ) (t : Tree) (o : QObj),
    (insertF fuel t o).allObjects.Perm (o :: t.allObjects) := by
  intro fuel
  induction fuel with
  | zero =>
    intro t o
    cases t <;>
      · simp only [insertF, Tree.pushObj, Tree.allObjects]
        rw [← Multiset.coe_eq_coe]
        simp only [← Multiset.coe_add, ← Multiset.cons_coe, ← Multiset.singleton_add]
        abel
  | succ fuel ih =>
    intro t o
    have hco : ∀ (n : Tree) (o' : QObj),
        ((insertF fuel n o').allObjects : Multiset QObj) = ↑(o' :: n.allObjects) :=
      fun n o' => Multiset.coe_eq_coe.mpr (ih n o')
    cases t with
    | leaf b lv objs =>
      simp only [insertF]
      split_ifs with hsp
      · refine ((distribute_perm (insertF fuel) ih b (objs ++ [o]) _ _ _ _).trans ?_)
        rw [← Multiset.coe_eq_coe]
        simp only [split, Tree.allObjects, List.append_nil, ← Multiset.coe_add,
          ← Multiset.cons_coe, ← Multiset.singleton_add]
        abel
      · simp only [Tree.allObjects]
        rw [← Multiset.coe_eq_coe]
        simp only [← Multiset.coe_add, ← Multiset.cons_coe, ← Multiset.singleton_add]
        abel
    | branch b lv objs n0 n1 n2 n3 =>
      simp only [insertF]
      split_ifs with h0 h1 h2 h3 hsp
      · simp only [Tree.allObjects]
        rw [← Multiset.coe_eq_coe]
        simp only [← Multiset.coe_add, ← Multiset.cons_coe, hco, ← Multiset.singleton_add,
          ← Multiset.coe_add]
        abel
      · simp only [Tree.allObjects]
        rw [← Multiset.coe_eq_coe]
        simp only [← Multiset.coe_add, ← Multiset.cons_coe, hco, ← Multiset.singleton_add,
          ← Multiset.coe_add]
        abel
      · simp only [Tree.allObjects]
        rw [← Multiset.coe_eq_coe]
        simp only [← Multiset.coe_add, ← Multiset.cons_coe, hco, ← Multiset.singleton_add,
          ← Multiset.coe_add]
        abel
      · simp only [Tree.allObjects]
        rw [← Multiset.coe_eq_coe]
        simp only [← Multiset.coe_add, ← Multiset.cons_coe, hco, ← Multiset.singleton_add,
          ← Multiset.coe_add]
        abel
      · refine ((distribute_perm (insertF fuel) ih b (objs ++ [o]) _ _ _ _).trans ?_)
        rw [← Multiset.coe_eq_coe]
        simp only [Tree.allObjects, ← Multiset.coe_add, ← Multiset.cons_coe,
          ← Multiset.singleton_add]
        abel
      · simp only [Tree.allObjects]
        rw [← Multiset.coe_eq_coe]
        simp only [← Multiset.coe_add, ← Multiset.cons_coe, ← Multiset.singleton_add]
        abel

end QuadTree

namespace QuadTree

/-- Every object stored anywhere in `t` indexes to quadrant `i` of `b`. -/
def PlacedAt (b : Boundary) (i : ℤ) (t : Tree) : Prop :=
  ∀ o ∈ t.allObjects, getIndex b o = i

/-- Placement invariant maintained by `insert`: below every branch, child
`i` holds only objects whose quadrant index relative to that branch is `i`
(straddling objects stay in the branch's own list). -/
def Placed : Tree → Prop
  | .leaf _ _ _ => True
  | .branch b _ _ n0 n1 n2 n3 =>
      (PlacedAt b 0 n0 ∧ PlacedAt b 1 n1 ∧ PlacedAt b 2 n2 ∧ PlacedAt b 3 n3) ∧
      (Placed n0 ∧ Placed n1 ∧ Placed n2 ∧ Placed n3)

theorem placedAt_insertF (fuel : ℕ) (b : Boundary) (i : ℤ) (n : Tree) (o : QObj)
    (hn : PlacedAt b i n) (ho : getIndex b o = i) :
    PlacedAt b i (insertF fuel n o) := by
  intro x hx
  rcases List.mem_cons.mp ((insertF_perm fuel n o).mem_iff.mp hx) with rfl | hx'
  · exact ho
  · exact hn x hx'

/-- An unconditional node property preserved by `ins` is preserved on all
four children through the redistribution loop. -/
theorem distribute_preserves (P : Tree → Prop) (ins : Tree → QObj → Tree)
    (hins : ∀ n o, P n → P (ins n o)) (b : Boundary) :
    ∀ (l : List QObj) (n0 n1 n2 n3 : Tree), P n0 → P n1 → P n2 → P n3 →
      P (distribute ins b l n0 n1 n2 n3).2.1 ∧
      P (distribute ins b l n0 n1 n2 n3).2.2.1 ∧
      P (distribute ins b l n0 n1 n2 n3).2.2.2.1 ∧
      P (distribute ins b l n0 n1 n2 n3).2.2.2.2 := by
  intro l
  induction l with
  | nil => intro n0 n1 n2 n3 h0 h1 h2 h3; exact ⟨h0, h1, h2, h3⟩
  | cons o rest ih =>
    intro n0 n1 n2 n3 h0 h1 h2 h3
    simp only [distribute]
    split_ifs <;>
      first
        | exact ih _ _ _ _ (hins _ _ h0) h1 h2 h3
        | exact ih _ _ _ _ h0 (hins _ _ h1) h2 h3
        | exact ih _ _ _ _ h0 h1 (hins _ _ h2) h3
        | exact ih _ _ _ _ h0 h1 h2 (hins _ _ h3)
        | exact ih _ _ _ _ h0 h1 h2 h3

/-- The redistribution loop keeps each child `PlacedAt` its own quadrant:
objects are only moved into the child matching their index. -/
theorem distribute_placedAt (ins : Tree → QObj → Tree)
    (hins : ∀ (i : ℤ) (n : Tree) (o : QObj), PlacedAt b i n → getIndex b o = i →
      PlacedAt b i (ins n o)) :
    ∀ (l : List QObj) (n0 n1 n2 n3 : Tree),
      PlacedAt b 0 n0 → PlacedAt b 1 n1 → PlacedAt b 2 n2 → PlacedAt b 3 n3 →
      PlacedAt b 0 (distribute ins b l n0 n1 n2 n3).2.1 ∧
      PlacedAt b 1 (distribute ins b l n0 n1 n2 n3).2.2.1 ∧
      PlacedAt b 2 (distribute ins b l n0 n1 n2 n3).2.2.2.1 ∧
      PlacedAt b 3 (distribute ins b l n0 n1 n2 n3).2.2.2.2 := by
  intro l
  induction l with
  | nil => intro n0 n1 n2 n3 h0 h1 h2 h3; exact ⟨h0, h1, h2, h3⟩
  | cons o rest ih =>
    intro n0 n1 n2 n3 h0 h1 h2 h3
    simp only [distribute]
    split_ifs with g0 g1 g2 g3
    · exact ih _ _ _ _ (hins 0 n0 o h0 g0) h1 h2 h3
    · exact ih _ _ _ _ h0 (hins 1 n1 o h1 g1) h2 h3
    · exact ih _ _ _ _ h0 h1 (hins 2 n2 o h2 g2) h3
    · exact ih _ _ _ _ h0 h1 h2 (hins 3 n3 o h3 g3)
    · exact ih _ _ _ _ h0 h1 h2 h3

theorem placedAt_emptyLeaf (b : Boundary) (i : ℤ) (b' : Boundary) (lv : ℕ) :
    PlacedAt b i (.leaf b' lv []) :=
  fun x hx => absurd hx (List.not_mem_nil x)

/-- The branch node built from a redistribution satisfies the placement
invariant whenever the incoming children do. -/
theorem distribute_branch_placed (ins : Tree → QObj → Tree)
    (hinsA : ∀ (i : ℤ) (n : Tree) (o : QObj), PlacedAt b i n → getIndex b o = i →
      PlacedAt b i (ins n o))
    (hinsP : ∀ (n : Tree) (o : QObj), Placed n → Placed (ins n o))
    (lv : ℕ) (l : List QObj) (n0 n1 n2 n3 : Tree)
    (hA0 : PlacedAt b 0 n0) (hA1 : PlacedAt b 1 n1)
    (hA2 : PlacedAt b 2 n2) (hA3 : PlacedAt b 3 n3)
    (hP0 : Placed n0) (hP1 : Placed n1) (hP2 : Placed n2) (hP3 : Placed n3) :
    Placed (Tree.branch b lv (distribute ins b l n0 n1 n2 n3).1
      (distribute ins b l n0 n1 n2 n3).2.1
      (distribute ins b l n0 n1 n2 n3).2.2.1
      (distribute ins b l n0 n1 n2 n3).2.2.2.1
      (distribute ins b l n0 n1 n2 n3).2.2.2.2) := by
  have hA := distribute_placedAt ins hinsA l n0 n1 n2 n3 hA0 hA1 hA2 hA3
  have hP := distribute_preserves Placed ins hinsP b l n0 n1 n2 n3 hP0 hP1 hP2 hP3
  exact ⟨⟨hA.1, hA.2.1, hA.2.2.1, hA.2.2.2⟩, hP.1, hP.2.1, hP.2.2.1, hP.2.2.2⟩

theorem insertF_placed : ∀ (fuel : ℕ) (t : Tree) (o : QObj),
    Placed t → Placed (insertF fuel t o) := by
  intro fuel
  induction fuel with
  | zero =>
    intro t o hp
    cases t with
    | leaf b lv objs => trivial
    | branch b lv objs n0 n1 n2 n3 => exact hp
  | succ fuel ih =>
    intro t o hp
    cases t with
    | leaf b lv objs =>
      simp only [insertF, split]
      split_ifs with hsp
      · exact distribute_branch_placed (insertF fuel)
          (fun i n o' => placedAt_insertF fuel b i n o') (fun n o' => ih n o')
          lv (objs ++ [o]) _ _ _ _
          (placedAt_emptyLeaf b 0 _ _) (placedAt_emptyLeaf b 1 _ _)
          (placedAt_emptyLeaf b 2 _ _) (placedAt_emptyLeaf b 3 _ _)
          trivial trivial trivial trivial
      · trivial
    | branch b lv objs n0 n1 n2 n3 =>
      obtain ⟨⟨hA0, hA1, hA2, hA3⟩, hP0, hP1, hP2, hP3⟩ := hp
      simp only [insertF]
      split_ifs with g0 g1 g2 g3 hsp
      · exact ⟨⟨placedAt_insertF fuel b 0 n0 o hA0 g0, hA1, hA2, hA3⟩,
          ih n0 o hP0, hP1, hP2, hP3⟩
      · exact ⟨⟨hA0, placedAt_insertF fuel b 1 n1 o hA1 g1, hA2, hA3⟩,
          hP0, ih n1 o hP1, hP2, hP3⟩
      · exact ⟨⟨hA0, hA1, placedAt_insertF fuel b 2 n2 o hA2 g2, hA3⟩,
          hP0, hP1, ih n2 o hP2, hP3⟩
      · exact ⟨⟨hA0, hA1, hA2, placedAt_insertF fuel b 3 n3 o hA3 g3⟩,
          hP0, hP1, hP2, ih n3 o hP3⟩
      · exact distribute_branch_placed (insertF fuel)
          (fun i n o' => placedAt_insertF fuel b i n o') (fun n o' => ih n o')
          lv (objs ++ [o]) n0 n1 n2 n3 hA0 hA1 hA2 hA3 hP0 hP1 hP2 hP3
      · exact ⟨⟨hA0, hA1, hA2, hA3⟩, hP0, hP1, hP2, hP3⟩

end QuadTree
namespace QuadTree

/-- Completeness of `retrieve` on trees satisfying the placement invariant:
every stored object overlapping the query is among the returned candidates. -/
theorem retrieve_complete : ∀ (t : Tree), Placed t → ∀ (o q : QObj),
    o ∈ t.allObjects → rectsOverlap o q → o ∈ retrieve t q := by
  intro t
  induction t with
  | leaf b lv objs =>
    intro _ o q ho _
    exact ho
  | branch b lv objs n0 n1 n2 n3 ih0 ih1 ih2 ih3 =>
    intro hp o q ho hov
    obtain ⟨⟨hA0, hA1, hA2, hA3⟩, hP0, hP1, hP2, hP3⟩ := hp
    simp only [Tree.allObjects, List.mem_append] at ho
    have sep : ∀ io iq : ℤ, getIndex b o = io → getIndex b q = iq →
        io ≠ -1 → iq ≠ -1 → io ≠ iq → False := fun io iq h1 h2 h3 h4 h5 =>
      (getIndex_sep b o q (h1 ▸ h3) (h2 ▸ h4) (by rw [h1, h2]; exact h5)) hov
    simp only [retrieve]
    split_ifs with g0 g1 g2 g3 <;>
      simp only [List.mem_append]
    · rcases ho with h | h | h | h | h
      · exact Or.inl h
      · exact Or.inr (ih0 hP0 o q h hov)
      · exact absurd (sep 1 0 (hA1 o h) g0 (by decide) (by decide) (by decide)) not_false
      · exact absurd (sep 2 0 (hA2 o h) g0 (by decide) (by decide) (by decide)) not_false
      · exact absurd (sep 3 0 (hA3 o h) g0 (by decide) (by decide) (by decide)) not_false
    · rcases ho with h | h | h | h | h
      · exact Or.inl h
      · exact absurd (sep 0 1 (hA0 o h) g1 (by decide) (by decide) (by decide)) not_false
      · exact Or.inr (ih1 hP1 o q h hov)
      · exact absurd (sep 2 1 (hA2 o h) g1 (by decide) (by decide) (by decide)) not_false
      · exact absurd (sep 3 1 (hA3 o h) g1 (by decide) (by decide) (by decide)) not_false
    · rcases ho with h | h | h | h | h
      · exact Or.inl h
      · exact absurd (sep 0 2 (hA0 o h) g2 (by decide) (by decide) (by decide)) not_false
      · exact absurd (sep 1 2 (hA1 o h) g2 (by decide) (by decide) (by decide)) not_false
      · exact Or.inr (ih2 hP2 o q h hov)
      · exact absurd (sep 3 2 (hA3 o h) g2 (by decide) (by decide) (by decide)) not_false
    · rcases ho with h | h | h | h | h
      · exact Or.inl h
      · exact absurd (sep 0 3 (hA0 o h) g3 (by decide) (by decide) (by decide)) not_false
      · exact absurd (sep 1 3 (hA1 o h) g3 (by decide) (by decide) (by decide)) not_false
      · exact absurd (sep 2 3 (hA2 o h) g3 (by decide) (by decide) (by decide)) not_false
      · exact Or.inr (ih3 hP3 o q h hov)
    · rcases ho with h | h | h | h | h
      · exact Or.inl h
      · exact Or.inr (Or.inl (ih0 hP0 o q h hov))
      · exact Or.inr (Or.inr (Or.inl (ih1 hP1 o q h hov)))
      · exact Or.inr (Or.inr (Or.inr (Or.inl (ih2 hP2 o q h hov))))
      · exact Or.inr (Or.inr (Or.inr (Or.inr (ih3 hP3 o q h hov))))

end QuadTree
namespace QuadTree

/-- All node levels in the tree are at most `m`. -/
def LevelLe (m : ℕ) : Tree → Prop
  | .leaf _ lv _ => lv ≤ m
  | .branch _ lv _ n0 n1 n2 n3 =>
      lv ≤ m ∧ LevelLe m n0 ∧ LevelLe m n1 ∧ LevelLe m n2 ∧ LevelLe m n3

/-- Level invariant maintained by `insert`: leaves are at level at most
`MAX_LEVELS` and branches strictly below it (a branch can only have been
created by `split`, which the guard `level < MAX_LEVELS` protects). -/
def Bounded : Tree → Prop
  | .leaf _ lv _ => lv ≤ MAX_LEVELS
  | .branch _ lv _ n0 n1 n2 n3 =>
      lv < MAX_LEVELS ∧ Bounded n0 ∧ Bounded n1 ∧ Bounded n2 ∧ Bounded n3

/-- Split-justification invariant: every node that has children exceeded
`MAX_OBJECTS` stored objects in its subtree (objects never leave a
subtree, so the count at split time persists) at a level allowing a split. -/
def Justified : Tree → Prop
  | .leaf _ _ _ => True
  | .branch _ lv objs n0 n1 n2 n3 =>
      MAX_OBJECTS < (objs ++ (n0.allObjects ++ (n1.allObjects ++
        (n2.allObjects ++ n3.allObjects)))).length ∧
      lv < MAX_LEVELS ∧
      Justified n0 ∧ Justified n1 ∧ Justified n2 ∧ Justified n3

theorem bounded_levelLe : ∀ t : Tree, Bounded t → LevelLe MAX_LEVELS t := by
  intro t
  induction t with
  | leaf b lv objs => exact fun h => h
  | branch b lv objs n0 n1 n2 n3 ih0 ih1 ih2 ih3 =>
    intro ⟨hlv, h0, h1, h2, h3⟩
    exact ⟨Nat.le_of_lt hlv, ih0 h0, ih1 h1, ih2 h2, ih3 h3⟩

theorem insertF_bounded : ∀ (fuel : ℕ) (t : Tree) (o : QObj),
    Bounded t → Bounded (insertF fuel t o) := by
  intro fuel
  induction fuel with
  | zero =>
    intro t o hb
    cases t with
    | leaf b lv objs => exact hb
    | branch b lv objs n0 n1 n2 n3 => exact hb
  | succ fuel ih =>
    intro t o hb
    cases t with
    | leaf b lv objs =>
      simp only [insertF, split]
      split_ifs with hsp
      · obtain ⟨hobj, hlv⟩ := hsp
        have hD := distribute_preserves Bounded (insertF fuel)
          (fun n o' => ih n o') b (objs ++ [o])
          (.leaf ⟨b.x + b.width / 2, b.y, b.width / 2, b.height / 2⟩ (lv + 1) [])
          (.leaf ⟨b.x, b.y, b.width / 2, b.height / 2⟩ (lv + 1) [])
          (.leaf ⟨b.x, b.y + b.height / 2, b.width / 2, b.height / 2⟩ (lv + 1) [])
          (.leaf ⟨b.x + b.width / 2, b.y + b.height / 2, b.width / 2, b.height / 2⟩ (lv + 1) [])
          (by show lv + 1 ≤ MAX_LEVELS; omega)
          (by show lv + 1 ≤ MAX_LEVELS; omega)
          (by show lv + 1 ≤ MAX_LEVELS; omega)
          (by show lv + 1 ≤ MAX_LEVELS; omega)
        exact ⟨hlv, hD.1, hD.2.1, hD.2.2.1, hD.2.2.2⟩
      · exact hb
    | branch b lv objs n0 n1 n2 n3 =>
      obtain ⟨hlv, hB0, hB1, hB2, hB3⟩ := hb
      simp only [insertF]
      split_ifs with g0 g1 g2 g3 hsp
      · exact ⟨hlv, ih n0 o hB0, hB1, hB2, hB3⟩
      · exact ⟨hlv, hB0, ih n1 o hB1, hB2, hB3⟩
      · exact ⟨hlv, hB0, hB1, ih n2 o hB2, hB3⟩
      · exact ⟨hlv, hB0, hB1, hB2, ih n3 o hB3⟩
      · have hD := distribute_preserves Bounded (insertF fuel)
          (fun n o' => ih n o') b (objs ++ [o]) n0 n1 n2 n3 hB0 hB1 hB2 hB3
        exact ⟨hlv, hD.1, hD.2.1, hD.2.2.1, hD.2.2.2⟩
      · exact ⟨hlv, hB0, hB1, hB2, hB3⟩

theorem insertF_length (fuel : ℕ) (t : Tree) (o : QObj) :
    (insertF fuel t o).allObjects.length = t.allObjects.length + 1 := by
  simpa using (insertF_perm fuel t o).length_eq

end QuadTree
namespace QuadTree

theorem insertF_justified : ∀ (fuel : ℕ) (t : Tree) (o : QObj),
    Justified t → Justified (insertF fuel t o) := by
  intro fuel
  induction fuel with
  | zero =>
    intro t o hj
    cases t with
    | leaf b lv objs => trivial
    | branch b lv objs n0 n1 n2 n3 =>
      obtain ⟨hlen, hlv, hJ0, hJ1, hJ2, hJ3⟩ := hj
      refine ⟨?_, hlv, hJ0, hJ1, hJ2, hJ3⟩
      simp only [List.length_append] at hlen ⊢
      simp only [List.length_singleton]
      omega
  | succ fuel ih =>
    intro t o hj
    cases t with
    | leaf b lv objs =>
      simp only [insertF, split]
      split_ifs with hsp
      · obtain ⟨hobj, hlv⟩ := hsp
        have hL := (distribute_perm (insertF fuel) (insertF_perm fuel) b (objs ++ [o])
          (.leaf ⟨b.x + b.width / 2, b.y, b.width / 2, b.height / 2⟩ (lv + 1) [])
          (.leaf ⟨b.x, b.y, b.width / 2, b.height / 2⟩ (lv + 1) [])
          (.leaf ⟨b.x, b.y + b.height / 2, b.width / 2, b.height / 2⟩ (lv + 1) [])
          (.leaf ⟨b.x + b.width / 2, b.y + b.height / 2, b.width / 2,
            b.height / 2⟩ (lv + 1) [])).length_eq
        have hD := distribute_preserves Justified (insertF fuel)
          (fun n o' => ih n o') b (objs ++ [o])
          (.leaf ⟨b.x + b.width / 2, b.y, b.width / 2, b.height / 2⟩ (lv + 1) [])
          (.leaf ⟨b.x, b.y, b.width / 2, b.height / 2⟩ (lv + 1) [])
          (.leaf ⟨b.x, b.y + b.height / 2, b.width / 2, b.height / 2⟩ (lv + 1) [])
          (.leaf ⟨b.x + b.width / 2, b.y + b.height / 2, b.width / 2,
            b.height / 2⟩ (lv + 1) [])
          trivial trivial trivial trivial
        refine ⟨?_, hlv, hD.1, hD.2.1, hD.2.2.1, hD.2.2.2⟩
        simp only [Tree.allObjects, List.length_append, List.length_singleton,
          List.length_nil] at hL hobj ⊢
        omega
      · trivial
    | branch b lv objs n0 n1 n2 n3 =>
      obtain ⟨hlen, hlv, hJ0, hJ1, hJ2, hJ3⟩ := hj
      simp only [insertF]
      split_ifs with g0 g1 g2 g3 hsp
      · refine ⟨?_, hlv, ih n0 o hJ0, hJ1, hJ2, hJ3⟩
        have hl0 := insertF_length fuel n0 o
        simp only [List.length_append] at hlen ⊢
        omega
      · refine ⟨?_, hlv, hJ0, ih n1 o hJ1, hJ2, hJ3⟩
        have hl1 := insertF_length fuel n1 o
        simp only [List.length_append] at hlen ⊢
        omega
      · refine ⟨?_, hlv, hJ0, hJ1, ih n2 o hJ2, hJ3⟩
        have hl2 := insertF_length fuel n2 o
        simp only [List.length_append] at hlen ⊢
        omega
      · refine ⟨?_, hlv, hJ0, hJ1, hJ2, ih n3 o hJ3⟩
        have hl3 := insertF_length fuel n3 o
        simp only [List.length_append] at hlen ⊢
        omega
      · have hL := (distribute_perm (insertF fuel) (insertF_perm fuel) b (objs ++ [o])
          n0 n1 n2 n3).length_eq
        have hD := distribute_preserves Justified (insertF fuel)
          (fun n o' => ih n o') b (objs ++ [o]) n0 n1 n2 n3 hJ0 hJ1 hJ2 hJ3
        refine ⟨?_, hlv, hD.1, hD.2.1, hD.2.2.1, hD.2.2.2⟩
        simp only [List.length_append, List.length_singleton] at hL hlen ⊢
        omega
      · refine ⟨?_, hlv, hJ0, hJ1, hJ2, hJ3⟩
        simp only [List.length_append, List.length_singleton] at hlen ⊢
        omega

end QuadTree
namespace QuadTree

/-- Retrieval never repeats a stored occurrence: each object's multiplicity
in the candidate list is at most its multiplicity in the whole tree
(retrieve visits each node at most once and each object lives in one list). -/
theorem count_retrieve_le (q : QObj) : ∀ (t : Tree) (x : QObj),
    (retrieve t q).count x ≤ t.allObjects.count x := by
  intro t
  induction t with
  | leaf b lv objs => intro x; exact le_refl _
  | branch b lv objs n0 n1 n2 n3 ih0 ih1 ih2 ih3 =>
    intro x
    have h0 := ih0 x
    have h1 := ih1 x
    have h2 := ih2 x
    have h3 := ih3 x
    have c0 : 0 ≤ (retrieve n0 q).count x := Nat.zero_le _
    simp only [retrieve, Tree.allObjects]
    split_ifs <;> simp only [List.count_append] <;> omega

theorem retrieve_nodup_of_tree (t : Tree) (q : QObj)
    (h : t.allObjects.Nodup) : (retrieve t q).Nodup := by
  rw [List.nodup_iff_count_le_one] at h ⊢
  intro a
  exact le_trans (count_retrieve_le q t a) (h a)

theorem insertAll_perm : ∀ (objs : List QObj) (t : Tree),
    (insertAll t objs).allObjects.Perm (objs ++ t.allObjects) := by
  intro objs
  induction objs with
  | nil => intro t; simp [insertAll]
  | cons o rest ih =>
    intro t
    have h1 : (insertAll t (o :: rest)).allObjects.Perm
        (rest ++ (insert t o).allObjects) := ih (insert t o)
    refine h1.trans ?_
    refine (List.Perm.append_left rest (insertF_perm (MAX_LEVELS + 2) t o)).trans ?_
    exact List.perm_middle

theorem insertAll_placed (objs : List QObj) : ∀ (t : Tree),
    Placed t → Placed (insertAll t objs) := by
  induction objs with
  | nil => intro t h; exact h
  | cons o rest ih => intro t h; exact ih (insert t o) (insertF_placed _ t o h)

theorem insertAll_bounded (objs : List QObj) : ∀ (t : Tree),
    Bounded t → Bounded (insertAll t objs) := by
  induction objs with
  | nil => intro t h; exact h
  | cons o rest ih => intro t h; exact ih (insert t o) (insertF_bounded _ t o h)

theorem insertAll_justified (objs : List QObj) : ∀ (t : Tree),
    Justified t → Justified (insertAll t objs) := by
  induction objs with
  | nil => intro t h; exact h
  | cons o rest ih => intro t h; exact ih (insert t o) (insertF_justified _ t o h)

theorem insert_leaf_hasChildren_iff (b : Boundary) (lv : ℕ) (objs : List QObj)
    (o : QObj) :
    (insert (.leaf b lv objs) o).hasChildren ↔
      (MAX_OBJECTS < objs.length + 1 ∧ lv < MAX_LEVELS) := by
  have hrw : insert (.leaf b lv objs) o
      = insertF (MAX_LEVELS + 1 + 1) (.leaf b lv objs) o := rfl
  rw [hrw]
  simp only [insertF]
  split_ifs with hsp
  · simp only [Tree.hasChildren, true_iff]
    simpa using hsp
  · simp only [Tree.hasChildren, false_iff]
    simpa using hsp

end QuadTree
namespace QuadTree

/-- Claim C2.  For every sequence of objects inserted into a freshly
constructed QuadTree and every query object `q`, the list returned by
`retrieve q` contains every inserted object whose axis-aligned rectangle
truly overlaps `q` (the AABB test of the collision system): retrieve may
return extra candidates but never omits an overlapping inserted object. -/
theorem retrieve_superset_of_overlapping (b : Boundary) (objs : List QObj)
    (o q : QObj) (ho : o ∈ objs) (hov : rectsOverlap o q) :
    o ∈ retrieve (insertAll (mkTree b) objs) q := by
  have hperm := insertAll_perm objs (mkTree b)
  have hmem : o ∈ (insertAll (mkTree b) objs).allObjects :=
    hperm.mem_iff.mpr (by simpa [mkTree, Tree.allObjects] using ho)
  exact retrieve_complete _ (insertAll_placed objs (mkTree b) trivial) o q hmem hov

/-- Witness for C2 at a concrete input: the first inserted rectangle
overlaps the query and is indeed among the candidates. -/
theorem retrieve_superset_of_overlapping_witness :
    (⟨100, 100, 50, 50, 0⟩ : QObj) ∈
      retrieve (insertAll (mkTree ⟨0, 0, 1000, 1000⟩)
        [⟨100, 100, 50, 50, 0⟩, ⟨600, 100, 50, 50, 1⟩]) ⟨120, 120, 10, 10, 7⟩ :=
  retrieve_superset_of_overlapping ⟨0, 0, 1000, 1000⟩
    [⟨100, 100, 50, 50, 0⟩, ⟨600, 100, 50, 50, 1⟩]
    ⟨100, 100, 50, 50, 0⟩ ⟨120, 120, 10, 10, 7⟩ (List.mem_cons_self _ _)
    (by norm_num [rectsOverlap])

/-- Claim C6.  After every sequence of inserts on a QuadTree constructed at
level 0: every node's level is at most `MAX_LEVELS` = 5; every node that
has children exceeded `MAX_OBJECTS` = 10 held objects in its subtree at a
level strictly below `MAX_LEVELS` (and a direct insert into a leaf creates
children exactly when the post-push count exceeds `MAX_OBJECTS` and the
level allows); and the multiset of objects held across all node lists is
exactly the multiset inserted — no duplication, no loss. -/
theorem insert_structure_invariants :
    (∀ (b : Boundary) (objs : List QObj),
        LevelLe MAX_LEVELS (insertAll (mkTree b) objs)) ∧
    (∀ (b : Boundary) (objs : List QObj), Justified (insertAll (mkTree b) objs)) ∧
    (∀ (b : Boundary) (objs : List QObj),
        (insertAll (mkTree b) objs).allObjects.Perm objs) ∧
    (∀ (b : Boundary) (lv : ℕ) (objs : List QObj) (o : QObj),
        (insert (.leaf b lv objs) o).hasChildren ↔
          (MAX_OBJECTS < objs.length + 1 ∧ lv < MAX_LEVELS)) := by
  refine ⟨?_, ?_, ?_, insert_leaf_hasChildren_iff⟩
  · intro b objs
    exact bounded_levelLe _ (insertAll_bounded objs (mkTree b) (Nat.zero_le _))
  · intro b objs
    exact insertAll_justified objs (mkTree b) trivial
  · intro b objs
    exact (insertAll_perm objs (mkTree b)).trans (by simp [mkTree, Tree.allObjects])

/-- Claim C10.  For distinct inserted objects, `retrieve` returns each
stored object at most once: the candidate list has no duplicates. -/
theorem retrieve_nodup (b : Boundary) (objs : List QObj) (q : QObj)
    (h : objs.Nodup) : (retrieve (insertAll (mkTree b) objs) q).Nodup := by
  apply retrieve_nodup_of_tree
  have hperm : (insertAll (mkTree b) objs).allObjects.Perm objs :=
    (insertAll_perm objs (mkTree b)).trans (by simp [mkTree, Tree.allObjects])
  exact hperm.nodup_iff.mpr h

/-- Witness for C10 at a concrete input: two distinct inserted rectangles,
query overlapping the first; the candidate list is duplicate-free. -/
theorem retrieve_nodup_witness :
    (retrieve (insertAll (mkTree ⟨0, 0, 1000, 1000⟩)
      [⟨100, 100, 50, 50, 0⟩, ⟨600, 100, 50, 50, 1⟩]) ⟨120, 120, 10, 10, 7⟩).Nodup :=
  retrieve_nodup ⟨0, 0, 1000, 1000⟩
    [⟨100, 100, 50, 50, 0⟩, ⟨600, 100, 50, 50, 1⟩] ⟨120, 120, 10, 10, 7⟩
    (by norm_num [List.nodup_cons, QObj.mk.injEq])

end QuadTree
namespace CollisionSystem

/-- Circle collider (sprite.ts `CircleCollider`): center and radius.
Coordinates are real numbers because the circle test takes a square root. -/
structure CircleCollider where
  x : ℝ
  y : ℝ
  radius : ℝ

/-- Rectangle collider (sprite.ts `RectangleCollider`): top-left corner
plus extents. -/
structure RectangleCollider where
  x : ℝ
  y : ℝ
  width : ℝ
  height : ℝ

/-- Tagged collider union (the source discriminates on `collider.type`). -/
inductive CollisionShape where
  | circle (c : CircleCollider)
  | rectangle (r : RectangleCollider)

/-- Entity registered for collision detection (sprite.ts `Collidable`). -/
structure Collidable where
  id : String
  collider : CollisionShape
  active : Bool

/-- Result of a collision check.  The claims under study only concern the
`collided` flag, so the optional overlap vector (which is computed from
the same comparisons and does not feed back into `collided`) is omitted. -/
structure CollisionResult where
  collided : Prop

/-- Embedding of `checkCircleCircle` (sprite.ts lines 334-347): collides
iff the center distance is strictly below the radius sum. -/
def checkCircleCircle (c1 c2 : CircleCollider) : CollisionResult :=
  ⟨Real.sqrt ((c2.x - c1.x) * (c2.x - c1.x) + (c2.y - c1.y) * (c2.y - c1.y))
    < c1.radius + c2.radius⟩

/-- Embedding of `checkCircleRectangle` (sprite.ts lines 352-367): clamp
the center to the rectangle and compare squared distance with radius². -/
def checkCircleRectangle (c : CircleCollider) (r : RectangleCollider) :
    CollisionResult :=
  let closestX := max r.x (min c.x (r.x + r.width))
  let closestY := max r.y (min c.y (r.y + r.height))
  let distanceX := c.x - closestX
  let distanceY := c.y - closestY
  ⟨distanceX * distanceX + distanceY * distanceY < c.radius * c.radius⟩

/-- Embedding of `checkRectangleRectangle` (sprite.ts lines 372-385):
AABB test — collides unless one of the four separating conditions holds. -/
def checkRectangleRectangle (r1 r2 : RectangleCollider) : CollisionResult :=
  ⟨¬ (r2.x > r1.x + r1.width ∨ r2.x + r2.width < r1.x ∨
      r2.y > r1.y + r1.height ∨ r2.y + r2.height < r1.y)⟩

/-- Embedding of `checkCollision` (sprite.ts lines 295-310): inactive
entities never collide; otherwise dispatch on the two collider shapes,
always passing the circle first to the circle/rectangle test. -/
def checkCollision (e1 e2 : Collidable) : CollisionResult :=
  if !e1.active || !e2.active then ⟨False⟩
  else
    match e1.collider, e2.collider with
    | .circle c1, .circle c2 => checkCircleCircle c1 c2
    | .circle c1, .rectangle r2 => checkCircleRectangle c1 r2
    | .rectangle r1, .circle c2 => checkCircleRectangle c2 r1
    | .rectangle r1, .rectangle r2 => checkRectangleRectangle r1 r2

/-- Symmetry of the circle/circle test: squared center displacement and
radius sum are symmetric in the two circles. -/
theorem circleCircle_symm (c1 c2 : CircleCollider) :
    (checkCircleCircle c1 c2).collided ↔ (checkCircleCircle c2 c1).collided := by
  simp only [checkCircleCircle]
  rw [show (c1.x - c2.x) * (c1.x - c2.x) + (c1.y - c2.y) * (c1.y - c2.y)
      = (c2.x - c1.x) * (c2.x - c1.x) + (c2.y - c1.y) * (c2.y - c1.y) from by ring,
    add_comm c2.radius c1.radius]

/-- Symmetry of the AABB test: the four separating conditions swap in
pairs when the rectangles swap. -/
theorem rectRect_symm (r1 r2 : RectangleCollider) :
    (checkRectangleRectangle r1 r2).collided ↔
      (checkRectangleRectangle r2 r1).collided := by
  simp only [checkRectangleRectangle, gt_iff_lt]
  tauto

/-- Claim C3.  `checkCollision` is symmetric in its two entities for every
shape combination (circle/circle, circle/rectangle, rectangle/rectangle,
active or not), and two circles whose center distance equals exactly the
sum of their radii do not collide (the circle test uses strict `<`). -/
theorem checkCollision_symm_tangent :
    (∀ e1 e2 : Collidable,
        (checkCollision e1 e2).collided ↔ (checkCollision e2 e1).collided) ∧
    (∀ (e1 e2 : Collidable) (c1 c2 : CircleCollider),
        e1.collider = .circle c1 → e2.collider = .circle c2 →
        Real.sqrt ((c2.x - c1.x) * (c2.x - c1.x) + (c2.y - c1.y) * (c2.y - c1.y))
          = c1.radius + c2.radius →
        ¬ (checkCollision e1 e2).collided) := by
  constructor
  · rintro ⟨id1, col1, act1⟩ ⟨id2, col2, act2⟩
    cases act1 <;> cases act2 <;> cases col1 <;> cases col2 <;>
      first
        | exact Iff.rfl
        | exact circleCircle_symm _ _
        | exact rectRect_symm _ _
  · rintro ⟨id1, col1, act1⟩ ⟨id2, col2, act2⟩ c1 c2 h1 h2 hd
    cases h1
    cases h2
    cases act1 <;> cases act2 <;>
      first
        | exact not_false
        | (show ¬ (checkCircleCircle c1 c2).collided
           simp only [checkCircleCircle, hd]
           exact lt_irrefl _)

/-- Witness for C3's tangency part: circles centered (0,0) radius 2 and
(3,4) radius 3 are at distance 5 = 2 + 3 and do not collide. -/
theorem checkCollision_symm_tangent_witness :
    ¬ (checkCollision ⟨"a", .circle ⟨0, 0, 2⟩, true⟩
        ⟨"b", .circle ⟨3, 4, 3⟩, true⟩).collided :=
  checkCollision_symm_tangent.2 ⟨"a", .circle ⟨0, 0, 2⟩, true⟩
    ⟨"b", .circle ⟨3, 4, 3⟩, true⟩ ⟨0, 0, 2⟩ ⟨3, 4, 3⟩ rfl rfl (by
      rw [show ((3 : ℝ) - 0) * ((3 : ℝ) - 0) + ((4 : ℝ) - 0) * ((4 : ℝ) - 0)
          = 5 ^ 2 by norm_num]
      rw [Real.sqrt_sq (by norm_num : (0 : ℝ) ≤ 5)]
      norm_num)

end CollisionSystem
namespace ProjectileSystem

/-- Modelled from the spec: mutable state of a pooled projectile.  The
`Projectile` class used by `ProjectileSystem` (with a no-argument
constructor and `reset`/`initialize`/`isExpired`) is absent from the
sources — only ProjectileSystem, its caller, is present.  Per the spec a
projectile carries position, velocity (direction × speed), damage, source
entity id, age against a lifespan, and an active flag, and `reset`
restores every mutable field to the construction defaults. -/
structure ProjState where
  posX : ℚ
  posY : ℚ
  velX : ℚ
  velY : ℚ
  damage : ℚ
  sourceId : String
  age : ℚ
  lifespan : ℚ
  active : Bool
deriving DecidableEq, Repr

/-- Modelled from the spec: state of a projectile fresh out of `new
Projectile()`, and the state `reset` restores. -/
def defaultProj : ProjState :=
  ⟨0, 0, 0, 0, 0, "", 0, 0, false⟩

/-- Modelled from the spec: `projectile.initialize(position, direction,
speed, damage, lifetime, sprite, sourceId)` arms a pooled instance
(velocity = direction × speed; sprite is render-only and omitted). -/
def initProj (posX posY dirX dirY speed damage lifetime : ℚ)
    (sourceId : String) : ProjState :=
  ⟨posX, posY, dirX * speed, dirY * speed, damage, sourceId, 0, lifetime, true⟩

/-- Modelled from the spec: per-tick update advances the position by
velocity × dt and ages the projectile against its lifespan. -/
def updateProj (dt : ℚ) (p : ProjState) : ProjState :=
  { p with
      posX := p.posX + p.velX * (dt / 1000),
      posY := p.posY + p.velY * (dt / 1000),
      age := p.age + dt }

/-- Modelled from the spec: a projectile expires when its lifespan has
elapsed. -/
def isExpired (p : ProjState) : Prop := p.lifespan ≤ p.age

instance (p : ProjState) : Decidable (isExpired p) := by
  unfold isExpired; infer_instance

/-- Projectile type configuration (EnemyWeaponSystem.ts `ProjectileConfig`;
the sprite field is render-only and omitted). -/
structure ProjectileConfig where
  speed : ℚ
  damage : ℚ
  lifetime : ℚ

/-- Default configurations installed by `setupDefaultConfigs`. -/
def getConfig : String → Option ProjectileConfig
  | "playerBasic" => some ⟨800, 10, 2000⟩
  | "enemyBasic" => some ⟨400, 5, 3000⟩
  | _ => none

/-- Pool capacity (`poolSize = 100`). -/
def poolSize : ℕ := 100

/-- State of the `ProjectileSystem`: the free list `projectilePool` (a JS
array used as a stack: push/pop at the tail), the active set
`activeProjectiles` (a JS `Set`: insertion-ordered, duplicate-free), and
the mutable state of each of the 100 pooled instances, identified by the
index 0..99 standing for their JS object identity. -/
structure PState where
  projectilePool : List ℕ
  activeProjectiles : List ℕ
  states : ℕ → ProjState

/-- Fresh system: `initializePool` fills the free list with 100 default
instances; nothing is active. -/
def initPS : PState :=
  ⟨List.range poolSize, [], fun _ => defaultProj⟩

/-- JS `Array.prototype.pop`: removes and returns the last element. -/
def arrayPop (l : List ℕ) : Option (ℕ × List ℕ) :=
  match l.reverse with
  | [] => none
  | x :: rest => some (x, rest.reverse)

/-- JS `Set.prototype.add`: appends if not already present. -/
def setAdd (l : List ℕ) (x : ℕ) : List ℕ :=
  if x ∈ l then l else l ++ [x]

/-- Embedding of `returnToPool` (EnemyWeaponSystem.ts lines 249-253):
remove from the active set, reset the instance, push onto the free list. -/
def returnToPool (p : ℕ) (s : PState) : PState :=
  { projectilePool := s.projectilePool ++ [p],
    activeProjectiles := s.activeProjectiles.erase p,
    states := Function.update s.states p defaultProj }

/-- Embedding of `spawnProjectile` (lines 263-290): unknown type or an
empty pool leave the system unchanged (returning null); otherwise pop an
instance off the free list, initialize it, and add it to the active set. -/
def spawnProjectile (posX posY dirX dirY : ℚ) (type sourceId : String)
    (s : PState) : PState :=
  match getConfig type with
  | none => s
  | some cfg =>
    match arrayPop s.projectilePool with
    | none => s
    | some (p, rest) =>
      { projectilePool := rest,
        activeProjectiles := setAdd s.activeProjectiles p,
        states := Function.update s.states p
          (initProj posX posY dirX dirY cfg.speed cfg.damage cfg.lifetime sourceId) }

/-- Loop body of `update` (lines 297-303): advance one active projectile,
then return it to the pool when it has expired. -/
def updateStep (dt : ℚ) (st : PState) (p : ℕ) : PState :=
  let st' : PState :=
    { st with states := Function.update st.states p (updateProj dt (st.states p)) }
  if isExpired (st'.states p) then returnToPool p st' else st'

/-- Embedding of `update` (lines 296-304): iterate the active set in
insertion order, advance each projectile, and return expired ones to the
pool.  JS `Set` iteration visits the snapshot in order; the only deletion
during iteration is of the element just visited. -/
def update (dt : ℚ) (s : PState) : PState :=
  s.activeProjectiles.foldl (updateStep dt) s

/-- Embedding of `removeProjectile` (lines 318-322): only returns the
projectile when it is currently in the active set, else a no-op. -/
def removeProjectile (p : ℕ) (s : PState) : PState :=
  if p ∈ s.activeProjectiles then returnToPool p s else s

/-- Loop body of `clearAll` (line 329). -/
def clearStep (st : PState) (p : ℕ) : PState := returnToPool p st

/-- Embedding of `clearAll` (lines 327-331): return every active
projectile to the pool. -/
def clearAll (s : PState) : PState :=
  s.activeProjectiles.foldl clearStep s

/-- States reachable from the freshly constructed system through the
public operations. -/
inductive Reachable : PState → Prop where
  | init : Reachable initPS
  | spawn (posX posY dirX dirY : ℚ) (type sourceId : String) (s : PState) :
      Reachable s → Reachable (spawnProjectile posX posY dirX dirY type sourceId s)
  | upd (dt : ℚ) (s : PState) : Reachable s → Reachable (update dt s)
  | remove (p : ℕ) (s : PState) : Reachable s → Reachable (removeProjectile p s)
  | clear (s : PState) : Reachable s → Reachable (clearAll s)

/-- Pool invariant: the active set and free list together are a
permutation of the 100 instance identities (hence disjoint, duplicate-free
and of constant total size), and every pooled instance is in the reset
state. -/
def Inv (s : PState) : Prop :=
  (s.activeProjectiles ++ s.projectilePool).Perm (List.range poolSize) ∧
  (∀ p ∈ s.projectilePool, s.states p = defaultProj)

end ProjectileSystem
namespace ProjectileSystem

theorem arrayPop_some {l : List ℕ} {x : ℕ} {rest : List ℕ}
    (h : arrayPop l = some (x, rest)) : l = rest ++ [x] := by
  unfold arrayPop at h
  rcases hrev : l.reverse with _ | ⟨y, rest'⟩
  · rw [hrev] at h; simp at h
  · rw [hrev] at h
    simp only [Option.some.injEq, Prod.mk.injEq] at h
    obtain ⟨rfl, rfl⟩ := h
    have hl : l = (y :: rest').reverse := by rw [← hrev, List.reverse_reverse]
    simpa using hl

theorem Inv.nodup {s : PState} (h : Inv s) :
    (s.activeProjectiles ++ s.projectilePool).Nodup :=
  h.1.nodup_iff.mpr (List.nodup_range _)

theorem Inv.disjoint {s : PState} (h : Inv s) :
    ∀ p, ¬ (p ∈ s.activeProjectiles ∧ p ∈ s.projectilePool) := by
  intro p ⟨ha, hp⟩
  have hnd := h.nodup
  rw [List.nodup_append] at hnd
  exact hnd.2.2 ha hp

theorem returnToPool_inv {s : PState} (p : ℕ) (hInv : Inv s)
    (hp : p ∈ s.activeProjectiles) : Inv (returnToPool p s) := by
  constructor
  · refine List.Perm.trans ?_ hInv.1
    show (s.activeProjectiles.erase p ++ (s.projectilePool ++ [p])).Perm _
    have hpe : (s.activeProjectiles : Multiset ℕ)
        = ↑(p :: s.activeProjectiles.erase p) :=
      Multiset.coe_eq_coe.mpr (List.perm_cons_erase hp)
    rw [← Multiset.coe_eq_coe]
    simp only [← Multiset.coe_add, hpe, ← Multiset.cons_coe, ← Multiset.singleton_add,
      ← Multiset.coe_add]
    abel
  · intro q hq
    show Function.update s.states p defaultProj q = defaultProj
    rcases List.mem_append.mp hq with hq | hq
    · rw [Function.update_apply]
      split_ifs with hqp
      · rfl
      · exact hInv.2 q hq
    · simp only [List.mem_singleton] at hq
      subst hq
      exact Function.update_same q defaultProj s.states

theorem spawn_inv (posX posY dirX dirY : ℚ) (type sourceId : String)
    {s : PState} (hInv : Inv s) :
    Inv (spawnProjectile posX posY dirX dirY type sourceId s) := by
  unfold spawnProjectile
  rcases hc : getConfig type with _ | cfg
  · exact hInv
  · rcases hp : arrayPop s.projectilePool with _ | ⟨p, rest⟩
    · exact hInv
    · have hl := arrayPop_some hp
      have hpmem : p ∈ s.projectilePool := by rw [hl]; simp
      have hpact : p ∉ s.activeProjectiles := fun ha => hInv.disjoint p ⟨ha, hpmem⟩
      have hnd := hInv.nodup
      rw [List.nodup_append] at hnd
      have hpool_nd : s.projectilePool.Nodup := hnd.2.1
      have hprest : p ∉ rest := by
        rw [hl] at hpool_nd
        have := List.disjoint_of_nodup_append hpool_nd
        intro hmem
        exact this hmem (by simp)
      constructor
      · refine List.Perm.trans ?_ hInv.1
        show (setAdd s.activeProjectiles p ++ rest).Perm _
        rw [setAdd, if_neg hpact, hl, ← Multiset.coe_eq_coe]
        simp only [← Multiset.coe_add, ← Multiset.cons_coe, ← Multiset.singleton_add,
          ← Multiset.coe_add]
        abel
      · intro q hq
        show Function.update s.states p _ q = defaultProj
        rw [Function.update_apply, if_neg (by rintro rfl; exact hprest hq)]
        exact hInv.2 q (by rw [hl]; exact List.mem_append_left _ hq)

theorem updateStep_active (dt : ℚ) (st : PState) (p : ℕ) :
    (updateStep dt st p).activeProjectiles = st.activeProjectiles ∨
    (updateStep dt st p).activeProjectiles = st.activeProjectiles.erase p := by
  unfold updateStep
  dsimp only
  split_ifs with h
  · exact Or.inr rfl
  · exact Or.inl rfl

theorem updateStep_inv (dt : ℚ) {st : PState} (p : ℕ) (hInv : Inv st)
    (hp : p ∈ st.activeProjectiles) : Inv (updateStep dt st p) := by
  have hInv' : Inv { st with
      states := Function.update st.states p (updateProj dt (st.states p)) } := by
    constructor
    · exact hInv.1
    · intro q hq
      show Function.update st.states p _ q = defaultProj
      rw [Function.update_apply,
        if_neg (by rintro rfl; exact hInv.disjoint q ⟨hp, hq⟩)]
      exact hInv.2 q hq
  unfold updateStep
  dsimp only
  split_ifs with h
  · exact returnToPool_inv p hInv' hp
  · exact hInv'

theorem update_fold_inv (dt : ℚ) : ∀ (l : List ℕ) (st : PState), Inv st →
    l.Nodup → (∀ p ∈ l, p ∈ st.activeProjectiles) →
    Inv (l.foldl (updateStep dt) st) := by
  intro l
  induction l with
  | nil => intro st h _ _; exact h
  | cons p rest ih =>
    intro st hInv hnd hsub
    have hp : p ∈ st.activeProjectiles := hsub p (by simp)
    rw [List.foldl_cons]
    refine ih (updateStep dt st p) (updateStep_inv dt p hInv hp)
      (List.Nodup.of_cons hnd) ?_
    intro q hq
    have hq_act : q ∈ st.activeProjectiles := hsub q (by simp [hq])
    have hqp : q ≠ p := by
      rintro rfl
      exact (List.nodup_cons.mp hnd).1 hq
    rcases updateStep_active dt st p with he | he
    · rw [he]; exact hq_act
    · rw [he]; exact List.mem_erase_of_ne hqp |>.mpr hq_act

theorem update_inv (dt : ℚ) {s : PState} (hInv : Inv s) : Inv (update dt s) := by
  have hnd := hInv.nodup
  rw [List.nodup_append] at hnd
  exact update_fold_inv dt s.activeProjectiles s hInv hnd.1 (fun p hp => hp)

theorem clear_fold_inv : ∀ (l : List ℕ) (st : PState), Inv st →
    l.Nodup → (∀ p ∈ l, p ∈ st.activeProjectiles) →
    Inv (l.foldl clearStep st) := by
  intro l
  induction l with
  | nil => intro st h _ _; exact h
  | cons p rest ih =>
    intro st hInv hnd hsub
    have hp : p ∈ st.activeProjectiles := hsub p (by simp)
    rw [List.foldl_cons]
    refine ih (clearStep st p) (returnToPool_inv p hInv hp)
      (List.Nodup.of_cons hnd) ?_
    intro q hq
    have hq_act : q ∈ st.activeProjectiles := hsub q (by simp [hq])
    have hqp : q ≠ p := by
      rintro rfl
      exact (List.nodup_cons.mp hnd).1 hq
    show q ∈ st.activeProjectiles.erase p
    exact (List.mem_erase_of_ne hqp).mpr hq_act

theorem clearAll_inv {s : PState} (hInv : Inv s) : Inv (clearAll s) := by
  have hnd := hInv.nodup
  rw [List.nodup_append] at hnd
  exact clear_fold_inv s.activeProjectiles s hInv hnd.1 (fun p hp => hp)

theorem removeProjectile_inv (p : ℕ) {s : PState} (hInv : Inv s) :
    Inv (removeProjectile p s) := by
  unfold removeProjectile
  split_ifs with h
  · exact returnToPool_inv p hInv h
  · exact hInv

theorem reachable_inv {s : PState} (h : Reachable s) : Inv s := by
  induction h with
  | init =>
    constructor
    · simp [initPS]
    · intro p _; rfl
  | spawn posX posY dirX dirY type sourceId s _ ih =>
    exact spawn_inv posX posY dirX dirY type sourceId ih
  | upd dt s _ ih => exact update_inv dt ih
  | remove p s _ ih => exact removeProjectile_inv p ih
  | clear s _ ih => exact clearAll_inv ih

end ProjectileSystem
namespace ProjectileSystem

/-- Claim C4.  For the projectile pool (capacity 100, pre-populated at
construction), after every sequence of spawn/update/remove/clearAll
operations: the active set and the free list are disjoint and their sizes
sum to 100; `removeProjectile` on a projectile not currently active is a
no-op; and every projectile on the free list is in the reset state (it was
reset before being pushed). -/
theorem projectilePool_invariants (s : PState) (h : Reachable s) :
    (∀ p, ¬ (p ∈ s.activeProjectiles ∧ p ∈ s.projectilePool)) ∧
    s.activeProjectiles.length + s.projectilePool.length = poolSize ∧
    (∀ p, p ∉ s.activeProjectiles → removeProjectile p s = s) ∧
    (∀ p ∈ s.projectilePool, s.states p = defaultProj) := by
  have hInv := reachable_inv h
  refine ⟨hInv.disjoint, ?_, ?_, hInv.2⟩
  · have hlen := hInv.1.length_eq
    simpa using hlen
  · intro p hp
    unfold removeProjectile
    rw [if_neg hp]

/-- Witness for C4 at the freshly constructed system. -/
theorem projectilePool_invariants_witness :
    ¬ (0 ∈ initPS.activeProjectiles ∧ 0 ∈ initPS.projectilePool) ∧
    initPS.activeProjectiles.length + initPS.projectilePool.length = poolSize ∧
    removeProjectile 5 initPS = initPS ∧
    initPS.states 3 = defaultProj := by
  have h := projectilePool_invariants initPS Reachable.init
  exact ⟨h.1 0, h.2.1, h.2.2.1 5 (by simp [initPS]),
    h.2.2.2 3 (by simp [initPS, poolSize])⟩

end ProjectileSystem
namespace WaveManager

/-- Wave configuration (WaveManager.ts `WaveConfig`). -/
structure WaveConfig where
  enemyCount : ℕ
  spawnDelay : ℚ
  difficulty : ℚ
  patterns : List String
deriving DecidableEq, Repr

/-- Embedding of `initializeWaveConfigs` (WaveManager.ts lines 52-73):
waves 1 and 2 are configured; all other numbers have no configuration. -/
def waveConfigs : ℕ → Option WaveConfig
  | 1 => some ⟨5, 1000, 1, ["basic"]⟩
  | 2 => some ⟨8, 800, 6 / 5, ["basic", "zigzag"]⟩
  | _ => none

/-- Notifications sent to the `GameState` collaborator, recorded as an
event log. -/
inductive WMEvent where
  | waveStart (n : ℕ)
  | waveComplete (n : ℕ)
  | waveError (n : ℕ)
deriving DecidableEq, Repr

/-- Mutable state of `WaveManager`.  Enemies are identified by a fresh
counter `nextEnemyId` standing for the JS object identity of each `new
Enemy(...)`; the randomly selected movement pattern does not influence any
scheduler field and is omitted. -/
structure WMState where
  currentWave : ℕ
  enemiesSpawned : ℕ
  enemiesRemaining : ℤ
  spawnTimer : ℚ
  isWaveActive : Bool
  activeEnemies : List ℕ
  nextEnemyId : ℕ
  events : List WMEvent
deriving DecidableEq, Repr

/-- State produced by the constructor (lines 38-47). -/
def initWM : WMState := ⟨0, 0, 0, 0, false, [], 0, []⟩

/-- Embedding of `startWave` (lines 78-97): the wave number is incremented
first; a missing configuration throws, and the catch block
(`handleWaveError`, lines 175-178) deactivates the wave and notifies the
error — the incremented wave number and the remaining fields are not
rolled back.  On success the counters reset and the wave activates. -/
def startWave (s : WMState) : WMState :=
  let cw := s.currentWave + 1
  match waveConfigs cw with
  | none =>
      { s with currentWave := cw, isWaveActive := false,
               events := s.events ++ [.waveError cw] }
  | some c =>
      { s with currentWave := cw, enemiesRemaining := (c.enemyCount : ℤ),
               enemiesSpawned := 0, isWaveActive := true, spawnTimer := 0,
               events := s.events ++ [.waveStart cw] }

/-- Embedding of `spawnEnemy` (lines 128-138): push a fresh enemy and
count it as spawned. -/
def spawnEnemy (s : WMState) : WMState :=
  { s with activeEnemies := s.activeEnemies ++ [s.nextEnemyId],
           nextEnemyId := s.nextEnemyId + 1,
           enemiesSpawned := s.enemiesSpawned + 1 }

/-- Embedding of `checkWaveCompletion` (lines 153-158): when no enemies
remain and the active set is empty, deactivate the wave and notify
completion. -/
def checkWaveCompletion (s : WMState) : WMState :=
  if s.enemiesRemaining ≤ 0 ∧ s.activeEnemies = [] then
    { s with isWaveActive := false,
             events := s.events ++ [.waveComplete s.currentWave] }
  else s

/-- Embedding of `update` (lines 103-122): no-op unless a wave is active;
otherwise accumulate the spawn timer, return early if the configuration is
missing, spawn one enemy when the timer has reached the delay and fewer
than `enemyCount` enemies have spawned (resetting the timer), then check
completion. -/
def update (dt : ℚ) (s : WMState) : WMState :=
  if !s.isWaveActive then s
  else
    let s1 := { s with spawnTimer := s.spawnTimer + dt }
    match waveConfigs s1.currentWave with
    | none => s1
    | some c =>
      let s2 := if s1.spawnTimer ≥ c.spawnDelay ∧ s1.enemiesSpawned < c.enemyCount
                then { spawnEnemy s1 with spawnTimer := 0 }
                else s1
      checkWaveCompletion s2

/-- Embedding of `onEnemyDestroyed` (lines 164-170): remove the enemy if
tracked and decrement the remaining count; untracked enemies are ignored. -/
def onEnemyDestroyed (e : ℕ) (s : WMState) : WMState :=
  if e ∈ s.activeEnemies then
    { s with activeEnemies := s.activeEnemies.erase e,
             enemiesRemaining := s.enemiesRemaining - 1 }
  else s

/-- Embedding of `reset` (lines 197-204). -/
def resetWM (s : WMState) : WMState :=
  { s with currentWave := 0, enemiesSpawned := 0, enemiesRemaining := 0,
           spawnTimer := 0, isWaveActive := false, activeEnemies := [] }

/-- Scheduler states reachable under the documented protocol.  The spec's
data-model invariant "a wave cannot start while another is active" is the
`isWaveActive = false` guard on `start`; the remaining operations are
unrestricted. -/
inductive Reachable : WMState → Prop where
  | init : Reachable initWM
  | start (s : WMState) : Reachable s → s.isWaveActive = false →
      Reachable (startWave s)
  | upd (dt : ℚ) (s : WMState) : Reachable s → Reachable (update dt s)
  | destroyed (e : ℕ) (s : WMState) : Reachable s →
      Reachable (onEnemyDestroyed e s)
  | res (s : WMState) : Reachable s → Reachable (resetWM s)

/-- Scheduler bookkeeping invariant: while a wave is active its
configuration exists, at most `enemyCount` enemies have spawned, and
`remaining = enemyCount - spawned + |active|`; while inactive the active
set is empty. -/
def Inv (s : WMState) : Prop :=
  (s.isWaveActive = true → ∃ c, waveConfigs s.currentWave = some c ∧
      s.enemiesSpawned ≤ c.enemyCount ∧
      s.enemiesRemaining =
        (c.enemyCount : ℤ) - s.enemiesSpawned + s.activeEnemies.length) ∧
  (s.isWaveActive = false → s.activeEnemies = [])

end WaveManager
namespace WaveManager

/-- Behaviour of `startWave` when the incremented wave number has no
configuration: the error path keeps the incremented number, deactivates,
notifies the error, and rolls nothing back. -/
theorem startWave_none {s : WMState}
    (hc : waveConfigs (s.currentWave + 1) = none) :
    startWave s = { s with
      currentWave := s.currentWave + 1,
      isWaveActive := false,
      events := s.events ++ [.waveError (s.currentWave + 1)] } := by
  simp [startWave, hc]

/-- Behaviour of `startWave` on a configured wave number. -/
theorem startWave_some {s : WMState} {c : WaveConfig}
    (hc : waveConfigs (s.currentWave + 1) = some c) :
    startWave s = { s with
      currentWave := s.currentWave + 1,
      enemiesRemaining := (c.enemyCount : ℤ), enemiesSpawned := 0,
      isWaveActive := true, spawnTimer := 0,
      events := s.events ++ [.waveStart (s.currentWave + 1)] } := by
  simp [startWave, hc]

/-- `update` is a no-op on an inactive scheduler. -/
theorem update_not_active {s : WMState} (dt : ℚ) (h : s.isWaveActive = false) :
    update dt s = s := by
  simp [update, h]

/-- Behaviour of one `update` on an active scheduler with a configured
wave: accumulate the timer, spawn if due, then check completion. -/
theorem update_active {s : WMState} {c : WaveConfig} (dt : ℚ)
    (h : s.isWaveActive = true) (hc : waveConfigs s.currentWave = some c) :
    update dt s = checkWaveCompletion
      (if s.spawnTimer + dt ≥ c.spawnDelay ∧ s.enemiesSpawned < c.enemyCount
       then { spawnEnemy { s with spawnTimer := s.spawnTimer + dt } with
                spawnTimer := 0 }
       else { s with spawnTimer := s.spawnTimer + dt }) := by
  simp only [update, h, Bool.not_true, Bool.false_eq_true, if_false, hc]

theorem startWave_inv {s : WMState} (h : Inv s)
    (hact : s.isWaveActive = false) : Inv (startWave s) := by
  rcases hc : waveConfigs (s.currentWave + 1) with _ | c
  · rw [startWave_none hc]
    exact ⟨fun h' => by simp at h', fun _ => h.2 hact⟩
  · rw [startWave_some hc]
    refine ⟨fun _ => ⟨c, ?_, ?_, ?_⟩, fun h' => by simp at h'⟩
    · exact hc
    · exact Nat.zero_le _
    · show (c.enemyCount : ℤ) = (c.enemyCount : ℤ) - (0 : ℕ) + s.activeEnemies.length
      rw [h.2 hact]
      simp
  
theorem onEnemyDestroyed_inv (e : ℕ) {s : WMState} (h : Inv s) :
    Inv (onEnemyDestroyed e s) := by
  unfold onEnemyDestroyed
  split_ifs with he
  · cases hact : s.isWaveActive
    · rw [h.2 hact] at he
      simp at he
    · obtain ⟨c, hc, hsp, hrem⟩ := h.1 hact
      have hpos : 0 < s.activeEnemies.length := List.length_pos_of_mem he
      have hlen : (s.activeEnemies.erase e).length = s.activeEnemies.length - 1 :=
        List.length_erase_of_mem he
      refine ⟨fun _ => ⟨c, hc, hsp, ?_⟩, fun h' => by simp [hact] at h'⟩
      show s.enemiesRemaining - 1 =
        (c.enemyCount : ℤ) - s.enemiesSpawned + (s.activeEnemies.erase e).length
      rw [hlen, hrem]
      have hcast : ((s.activeEnemies.length - 1 : ℕ) : ℤ)
          = (s.activeEnemies.length : ℤ) - 1 := by omega
      rw [hcast]
      ring
  · exact h

theorem resetWM_inv {s : WMState} : Inv (resetWM s) :=
  ⟨fun h' => by simp [resetWM] at h', fun _ => rfl⟩

theorem wm_update_inv (dt : ℚ) {s : WMState} (h : Inv s) : Inv (update dt s) := by
  cases hact : s.isWaveActive
  · rw [update_not_active dt hact]; exact h
  · obtain ⟨c, hc, hsp, hrem⟩ := h.1 hact
    rw [update_active dt hact hc]
    split_ifs with hspawn
    · unfold checkWaveCompletion
      split_ifs with hcomp
      · exact ⟨fun h' => by simp at h', fun _ => hcomp.2⟩
      · refine ⟨fun _ => ⟨c, hc, ?_, ?_⟩, fun h' => by simp [spawnEnemy, hact] at h'⟩
        · show s.enemiesSpawned + 1 ≤ c.enemyCount
          omega
        · show s.enemiesRemaining = (c.enemyCount : ℤ) - (s.enemiesSpawned + 1)
            + ((s.activeEnemies ++ [s.nextEnemyId]).length : ℤ)
          rw [hrem]
          simp only [List.length_append, List.length_singleton]
          push_cast
          ring
    · unfold checkWaveCompletion
      split_ifs with hcomp
      · exact ⟨fun h' => by simp at h', fun _ => hcomp.2⟩
      · exact ⟨fun _ => ⟨c, hc, hsp, hrem⟩, fun h' => by simp [hact] at h'⟩

theorem wm_reachable_inv {s : WMState} (h : Reachable s) : Inv s := by
  induction h with
  | init => exact ⟨fun h' => by simp [initWM] at h', fun _ => rfl⟩
  | start s _ hact ih => exact startWave_inv ih hact
  | upd dt s _ ih => exact wm_update_inv dt ih
  | destroyed e s _ ih => exact onEnemyDestroyed_inv e ih
  | res s _ ih => exact resetWM_inv

end WaveManager
namespace WaveManager

/-- Claim C5.  Completion discipline of the scheduler, for states reachable
under the documented protocol (a wave starts only while none is active):
(1) whenever an `update` deactivates an active wave, it does so with the
remaining count exactly 0 and the active enemy set empty — the sole
completion condition — and appends exactly one completion notification;
(2) once the configured number of enemies (5 for wave 1) have spawned and
all have been destroyed (`remaining ≤ 0`, empty active set), the next
`update` deactivates the wave and fires the completion notification,
appending exactly one event; (3) `update` on an inactive scheduler is a
no-op, so the transition fires exactly once. -/
theorem update_completion_spec :
    (∀ (s : WMState) (dt : ℚ), Reachable s → s.isWaveActive = true →
        (update dt s).isWaveActive = false →
        (update dt s).enemiesRemaining = 0 ∧
        (update dt s).activeEnemies = [] ∧
        (update dt s).events = s.events ++ [.waveComplete s.currentWave]) ∧
    (∀ (s : WMState) (dt : ℚ) (c : WaveConfig),
        waveConfigs s.currentWave = some c → s.isWaveActive = true →
        s.enemiesSpawned = c.enemyCount → s.enemiesRemaining ≤ 0 →
        s.activeEnemies = [] →
        update dt s = { s with
          spawnTimer := s.spawnTimer + dt, isWaveActive := false,
          events := s.events ++ [.waveComplete s.currentWave] }) ∧
    (∀ (s : WMState) (dt : ℚ), s.isWaveActive = false → update dt s = s) := by
  refine ⟨?_, ?_, fun s dt h => update_not_active dt h⟩
  · intro s dt hr hact hinact
    have hInv := wm_reachable_inv hr
    obtain ⟨c, hc, hsp, hrem⟩ := hInv.1 hact
    rw [update_active dt hact hc] at hinact ⊢
    unfold checkWaveCompletion at hinact ⊢
    split_ifs at hinact ⊢ with hspawn hcomp hcomp
    · exact absurd hcomp.2 (by simp [spawnEnemy])
    · simp [spawnEnemy, hact] at hinact
    · refine ⟨?_, hcomp.2, by simp⟩
      have hlen : s.activeEnemies.length = 0 := by
        have := hcomp.2
        simp only [List.length_eq_zero]
        exact this
      have hle := hcomp.1
      show s.enemiesRemaining = 0
      rw [hrem] at hle ⊢
      rw [hlen] at hle ⊢
      push_cast at hle ⊢
      omega
    · simp [hact] at hinact
  · intro s dt c hc hact hspeq hrle hemp
    rw [update_active dt hact hc]
    rw [if_neg (by rintro ⟨h1, h2⟩; omega)]
    unfold checkWaveCompletion
    rw [if_pos ⟨by simpa using hrle, by simpa using hemp⟩]

/-- Witness for C5: wave 1 (configured `enemyCount = 5`), 5 enemies
spawned and all destroyed; the next `update` deactivates the wave and
fires exactly one completion notification. -/
theorem update_completion_spec_witness :
    update 16 ⟨1, 5, 0, 0, true, [], 5, []⟩ =
      { (⟨1, 5, 0, 0, true, [], 5, []⟩ : WMState) with
        spawnTimer := (0 : ℚ) + 16, isWaveActive := false,
        events := [] ++ [.waveComplete 1] } :=
  update_completion_spec.2.1 ⟨1, 5, 0, 0, true, [], 5, []⟩ 16
    ⟨5, 1000, 1, ["basic"]⟩ rfl rfl rfl (by decide) rfl

/-- Claim C9.  `startWave` increments the wave number before looking up the
configuration; when the configuration is missing the call leaves the wave
number advanced (the failed number is consumed), leaves the wave inactive,
fires the error notification, and rolls back none of the other fields. -/
theorem startWave_missing_config (s : WMState)
    (h : waveConfigs (s.currentWave + 1) = none) :
    startWave s = { s with
      currentWave := s.currentWave + 1, isWaveActive := false,
      events := s.events ++ [.waveError (s.currentWave + 1)] } :=
  startWave_none h

/-- Witness for C9: after waves 1 and 2 the scheduler sits at wave number
2; `startWave` fails on the unconfigured wave 3, keeping the advanced
number and firing the error. -/
theorem startWave_missing_config_witness :
    startWave ⟨2, 8, 0, 0, false, [], 13, []⟩ =
      { (⟨2, 8, 0, 0, false, [], 13, []⟩ : WMState) with
        currentWave := 3, isWaveActive := false,
        events := [] ++ [.waveError 3] } :=
  startWave_missing_config ⟨2, 8, 0, 0, false, [], 13, []⟩ rfl

end WaveManager
namespace MovementPatterns

/-- 2D position (MovementPatterns.ts `Position`). -/
structure Position where
  x : ℚ
  y : ℚ
deriving DecidableEq, Repr

/-- Optional movement parameters (MovementPatterns.ts `MovementParams`). -/
structure MovementParams where
  amplitude : Option ℚ
  frequency : Option ℚ
  speed : Option ℚ
  radius : Option ℚ
  centerX : Option ℚ
  centerY : Option ℚ
  direction : Option ℚ

/-- A movement pattern is its `calculate` method: a pure function of the
current position, the elapsed time and the parameters.  The concrete
patterns of the library (sine, circular, zigzag, linear) use trigonometric
functions and play no role in the combination contract, which is generic
in the component patterns. -/
def MovementPattern : Type := Position → ℚ → MovementParams → Position

/-- Failure modes of `combinePatterns`: mismatched list lengths
("Number of patterns must match number of weights", thrown first) and
weights not summing to 1 ("Weights must sum to 1"). -/
inductive CombineError where
  | patternWeightMismatch
  | invalidWeights
deriving DecidableEq, Repr

/-- Embedding of `MovementUtils.combinePatterns` (MovementPatterns.ts
lines 164-190): reject mismatched lengths, then reject weight lists whose
sum differs from 1 by more than 0.001, then accumulate the per-coordinate
weighted sum of the component patterns' outputs. -/
def combinePatterns (patterns : List MovementPattern) (weights : List ℚ)
    (currentPos : Position) (time : ℚ) (params : MovementParams) :
    Except CombineError Position :=
  if patterns.length ≠ weights.length then .error .patternWeightMismatch
  else
    let totalWeight := weights.foldl (· + ·) 0
    if |totalWeight - 1| > 1 / 1000 then .error .invalidWeights
    else
      let r := (patterns.zip weights).foldl
        (fun acc pw => (acc.1 + (pw.1 currentPos time params).x * pw.2,
                        acc.2 + (pw.1 currentPos time params).y * pw.2))
        ((0 : ℚ), (0 : ℚ))
      .ok ⟨r.1, r.2⟩

theorem foldl_add_eq_sum : ∀ (l : List ℚ) (a : ℚ), l.foldl (· + ·) a = a + l.sum := by
  intro l
  induction l with
  | nil => intro a; simp
  | cons x rest ih =>
    intro a
    rw [List.foldl_cons, ih, List.sum_cons]
    ring

theorem combineFold_eq (pos : Position) (t : ℚ) (par : MovementParams) :
    ∀ (l : List (MovementPattern × ℚ)) (a b : ℚ),
      l.foldl (fun acc pw => (acc.1 + (pw.1 pos t par).x * pw.2,
                              acc.2 + (pw.1 pos t par).y * pw.2)) (a, b)
        = (a + (l.map (fun pw => (pw.1 pos t par).x * pw.2)).sum,
           b + (l.map (fun pw => (pw.1 pos t par).y * pw.2)).sum) := by
  intro l
  induction l with
  | nil => intro a b; simp
  | cons pw rest ih =>
    intro a b
    rw [List.foldl_cons, ih, List.map_cons, List.map_cons, List.sum_cons,
      List.sum_cons]
    simp only [Prod.mk.injEq]
    constructor <;> ring

/-- Claim C8.  `combinePatterns` fails with `InvalidWeights` whenever the
lengths match but `|sum(W) - 1| > 0.001`; it fails (with the
length-mismatch error) whenever the lengths differ; and when the weight
check passes it returns the per-coordinate weighted sum of the positions
produced by the component patterns. -/
theorem combinePatterns_spec :
    (∀ (P : List MovementPattern) (W : List ℚ) (pos : Position) (t : ℚ)
        (par : MovementParams), P.length = W.length →
        |W.sum - 1| > 1 / 1000 →
        combinePatterns P W pos t par = .error .invalidWeights) ∧
    (∀ (P : List MovementPattern) (W : List ℚ) (pos : Position) (t : ℚ)
        (par : MovementParams), P.length ≠ W.length →
        combinePatterns P W pos t par = .error .patternWeightMismatch) ∧
    (∀ (P : List MovementPattern) (W : List ℚ) (pos : Position) (t : ℚ)
        (par : MovementParams), P.length = W.length →
        |W.sum - 1| ≤ 1 / 1000 →
        combinePatterns P W pos t par = .ok
          ⟨((P.zip W).map (fun pw => (pw.1 pos t par).x * pw.2)).sum,
           ((P.zip W).map (fun pw => (pw.1 pos t par).y * pw.2)).sum⟩) := by
  have hfold : ∀ W : List ℚ, W.foldl (· + ·) 0 = W.sum := by
    intro W; rw [foldl_add_eq_sum]; ring
  refine ⟨?_, ?_, ?_⟩
  · intro P W pos t par hlen hw
    unfold combinePatterns
    rw [if_neg (by simp [hlen])]
    rw [hfold]
    rw [if_pos hw]
  · intro P W pos t par hlen
    unfold combinePatterns
    rw [if_pos hlen]
  · intro P W pos t par hlen hw
    unfold combinePatterns
    rw [if_neg (by simp [hlen])]
    rw [hfold]
    rw [if_neg (not_lt.mpr hw)]
    rw [combineFold_eq]
    simp

/-- Witness for C8 at a concrete input: a single identity pattern with
weight 2 is rejected with `InvalidWeights` since `|2 - 1| > 0.001`. -/
theorem combinePatterns_spec_witness :
    combinePatterns [fun pos _ _ => pos] [2] ⟨3, 4⟩ 0
      ⟨none, none, none, none, none, none, none⟩ = .error .invalidWeights :=
  combinePatterns_spec.1 [fun pos _ _ => pos] [2] ⟨3, 4⟩ 0
    ⟨none, none, none, none, none, none, none⟩ rfl
    (by norm_num [List.sum_cons, List.sum_nil])

end MovementPatterns
